import Mathlib

/-!
# gr-osmosdr: SpyServer client protocol engine and PlutoSDR source

A verification development over a shallow embedding of

* `lib/spyserver/spyserver_source_c.h` (frame decoder, sequence accounting,
  sample FIFO, negotiation guard), and
* `lib/plutosdr/plutosdr_source_c.{h,cc}` (construction, setters, getters,
  `set_params`).
-/

set_option autoImplicit false
set_option maxRecDepth 100000

/-! ## C++ `double`: IEEE-754 binary64 arithmetic

Finite binary64 values with the default rounding (to nearest, ties to even) and an unbounded
exponent range; infinities, NaN, the sign of zero, overflow and gradual underflow are not
modelled. A value is `m * 2^e` with a 53-bit significand. Every operation rounds its exact
result once, as SSE2 arithmetic does. -/

/-- Number of binary digits of `n`, with `fuel` bounding the recursion. -/
def bitlenAux : Nat → Nat → Nat
  | 0, _ => 0
  | fuel + 1, n => if n = 0 then 0 else bitlenAux fuel (n / 2) + 1

/-- Number of binary digits of `n` (`0` for `0`). -/
def bitlen (n : Nat) : Nat := bitlenAux n n

/-- A finite `double`: the value `m * 2^e`, where `m = 0` and `e = 0`, or `2^52 ≤ |m| < 2^53`. -/
structure Double where
  m : Int
  e : Int
deriving DecidableEq, Repr

namespace Double

/-- The significand is zero or has exactly 53 bits. -/
def wf (d : Double) : Bool :=
  (decide (d.m = 0) && decide (d.e = 0))
    || (decide (2 ^ 52 ≤ d.m.natAbs) && decide (d.m.natAbs < 2 ^ 53))

/-- The rational number a `double` stands for. -/
def toRat (d : Double) : ℚ := (d.m : ℚ) * (2 : ℚ) ^ d.e

/-- Rounding of a positive integer `n` to 53 significant bits, to nearest, ties to even: the
significand `q` with `2^52 ≤ q < 2^53` and the exponent `k` of the result `q * 2^k`. -/
def roundNat (n : Nat) : Nat × Int :=
  let bl := bitlen n
  if bl ≤ 53 then (n * 2 ^ (53 - bl), -((53 - bl : Nat) : Int))
  else
    let k := bl - 53
    let q := n / 2 ^ k
    let r := n % 2 ^ k
    let q' := if 2 ^ k < 2 * r ∨ (2 * r = 2 ^ k ∧ q % 2 = 1) then q + 1 else q
    if q' = 2 ^ 53 then (2 ^ 52, (k : Int) + 1) else (q', (k : Int))

/-- The `double` nearest to the exact value `m * 2^e`, ties to the even significand. -/
def round (m : Int) (e : Int) : Double :=
  if m = 0 then ⟨0, 0⟩
  else ⟨Int.sign m * ((roundNat m.natAbs).1 : Int), e + (roundNat m.natAbs).2⟩

/-- The rationals that are the value of a `double`: a significand below `2^53` times a power
of two. -/
def Repr53 (x : ℚ) : Prop := ∃ (m e : Int), m.natAbs < 2 ^ 53 ∧ x = (m : ℚ) * (2 : ℚ) ^ e

/-- The product `a * b` of two `double`s. -/
def mul (a b : Double) : Double := round (a.m * b.m) (a.e + b.e)

/-- The sum `a + b` of two `double`s. -/
def add (a b : Double) : Double :=
  let e := min a.e b.e
  round (a.m * 2 ^ (a.e - e).toNat + b.m * 2 ^ (b.e - e).toNat) e

/-- Conversion of an unsigned integer to `double`. -/
def ofNat (n : Nat) : Double := round (n : Int) 0

/-- The integer part of a `double`: the value with its fractional part discarded. -/
def trunc (d : Double) : Int :=
  if 0 ≤ d.e then d.m * 2 ^ d.e.toNat
  else Int.sign d.m * ((d.m.natAbs / 2 ^ (-d.e).toNat : Nat) : Int)

/-- Conversion of a `double` to a 64-bit unsigned integer type (`unsigned long long`, and
`unsigned long` in the LP64 data model): truncation, undefined (`none`) when the truncated
value is not representable in the destination type. -/
def toUInt64 (d : Double) : Option Nat :=
  if 0 ≤ d.trunc ∧ d.trunc < 2 ^ 64 then some d.trunc.toNat else none

/-- The literal `0.0`. -/
def zero : Double := ⟨0, 0⟩

/-- The literal `1.0`. -/
def one : Double := ⟨4503599627370496, -52⟩

/-- The literal `0.8`, `0x1.999999999999ap-1`. -/
def lit_0_8 : Double := ⟨7205759403792794, -53⟩

/-- The literal `0.000001`, `0x1.0c6f7a0b5ed8dp-20`. -/
def lit_0_000001 : Double := ⟨4722366482869645, -72⟩

end Double

namespace SpyServer

/-! ## Frame decoder (`parse_message` / `parse_header` / `parse_body`) -/

/-- One octet of the TCP byte stream. -/
abbrev Byte := Fin 256

/-- Modelled from the spec: `MessageHeader` is declared in `spyserver_protocol.h`, which is
absent; the fields are those of the data model, "protocol_id, message_type, stream_type,
sequence_number, body_length". -/
structure MessageHeader where
  protocol_id : Nat
  message_type : Nat
  stream_type : Nat
  sequence_number : Nat
  body_length : Nat
deriving DecidableEq, Repr

/-- Modelled from the spec: the values of `parser_phase`, "a parser state of
AwaitingHeader, AwaitingBody(expected_length)". -/
inductive ParserPhase where
  | AwaitingHeader
  | AwaitingBody (expected_length : Nat)
deriving DecidableEq, Repr

/-- Modelled from the spec: the wire constants of the absent `spyserver_protocol.h`: the
fixed header size (`sizeof(MessageHeader)`), how the header bytes decode into the header
fields, and the "configured maximum" of the body length. -/
structure FrameFormat where
  header_size : Nat
  decode_header : List Byte → MessageHeader
  max_body : Nat

/-- A decoded frame: header and body. -/
abbrev Frame := MessageHeader × List Byte

/-- The decoder fields of `spyserver_source_c` (`header_data`, `header`, `body_buffer`,
`parser_position`, `parser_phase`); `header_data` and `body_buffer` hold the bytes written so
far, `faulted` records that a frame was rejected. -/
structure Parser where
  parser_phase : ParserPhase
  parser_position : Nat
  header_data : List Byte
  header : MessageHeader
  body_buffer : List Byte
  faulted : Bool
deriving DecidableEq, Repr

/-- The decoder state after construction. -/
def Parser.init : Parser :=
  { parser_phase := .AwaitingHeader, parser_position := 0, header_data := [],
    header := ⟨0, 0, 0, 0, 0⟩, body_buffer := [], faulted := false }

/-- States the decoder can be in between two loop iterations: the write position is inside the
unit being assembled. -/
def Parser.wf (fmt : FrameFormat) (p : Parser) : Bool :=
  match p.parser_phase with
  | .AwaitingHeader => decide (p.parser_position < fmt.header_size)
  | .AwaitingBody n => decide (p.parser_position < n)

/-- Modelled from the spec: `parse_header` (its body is in the absent `spyserver_source_c.cc`):
"Header is fixed-size", "partial input is retained across calls". Copies as many bytes as the
header still needs, returns the number consumed, and on the last header byte decodes the
header and moves to `AwaitingBody`. -/
def parse_header (fmt : FrameFormat) (p : Parser) (buffer : List Byte) : Parser × Nat :=
  let to_write := min (fmt.header_size - p.parser_position) buffer.length
  let data := p.header_data ++ buffer.take to_write
  if p.parser_position + to_write = fmt.header_size then
    let h := fmt.decode_header data
    ({ p with header_data := [], parser_position := 0, header := h, body_buffer := [],
              parser_phase := .AwaitingBody h.body_length }, to_write)
  else
    ({ p with header_data := data, parser_position := p.parser_position + to_write }, to_write)

/-- Modelled from the spec: `parse_body` (its body is in the absent `spyserver_source_c.cc`):
"body length comes from the header", "a body of exactly body_length bytes". Copies as many
bytes as the body still needs, returns the number consumed, and on the last body byte moves
back to `AwaitingHeader`. -/
def parse_body (p : Parser) (expected_length : Nat) (buffer : List Byte) : Parser × Nat :=
  let to_write := min (expected_length - p.parser_position) buffer.length
  let data := p.body_buffer ++ buffer.take to_write
  if p.parser_position + to_write = expected_length then
    ({ p with body_buffer := data, parser_position := 0, parser_phase := .AwaitingHeader },
      to_write)
  else
    ({ p with body_buffer := data, parser_position := p.parser_position + to_write }, to_write)

/-- Modelled from the spec: one iteration of the loop of `parse_message` (absent
`spyserver_source_c.cc`) on a non-empty rest of the read buffer: returns the new decoder
state, the unconsumed rest and the frames completed. A body length above the configured
maximum rejects the frame and faults the decoder; a header announcing an empty body is a
complete frame. -/
def parse_iter (fmt : FrameFormat) (p : Parser) (buffer : List Byte) :
    Parser × List Byte × List Frame :=
  match p.parser_phase with
  | .AwaitingHeader =>
    let r := parse_header fmt p buffer
    let rest := buffer.drop r.2
    match r.1.parser_phase with
    | .AwaitingHeader => (r.1, rest, [])
    | .AwaitingBody n =>
      if fmt.max_body < n then ({ r.1 with faulted := true }, rest, [])
      else if n = 0 then
        ({ r.1 with parser_phase := .AwaitingHeader }, rest, [(r.1.header, [])])
      else (r.1, rest, [])
  | .AwaitingBody n =>
    let r := parse_body p n buffer
    let rest := buffer.drop r.2
    match r.1.parser_phase with
    | .AwaitingHeader => ({ r.1 with body_buffer := [] }, rest, [(r.1.header, r.1.body_buffer)])
    | .AwaitingBody _ => (r.1, rest, [])

/-- The `while (len > 0 && !terminated)` loop of `parse_message`, bounded by `fuel`
iterations. -/
def parse_loop (fmt : FrameFormat) : Nat → Parser → List Byte → Parser × List Frame
  | 0, p, _ => (p, [])
  | fuel + 1, p, buffer =>
    if p.faulted || buffer.isEmpty then (p, [])
    else
      let r := parse_iter fmt p buffer
      let t := parse_loop fmt fuel r.1 r.2.1
      (t.1, r.2.2 ++ t.2)

/-- Modelled from the spec: `parse_message(buffer, len)` (absent `spyserver_source_c.cc`):
"given an accumulating byte buffer, produces zero or more complete (header, body) frames".
Every iteration consumes at least one byte, so `len` iterations suffice. -/
def parse_message (fmt : FrameFormat) (p : Parser) (buffer : List Byte) : Parser × List Frame :=
  parse_loop fmt buffer.length p buffer

/-- The receiver loop feeding successive reads to `parse_message`, carrying the decoder state
from one call to the next and collecting the frames of all calls in order. -/
def feed_chunks (fmt : FrameFormat) (p : Parser) : List (List Byte) → Parser × List Frame
  | [] => (p, [])
  | c :: cs =>
    let r := parse_message fmt p c
    let t := feed_chunks fmt r.1 cs
    (t.1, r.2 ++ t.2)

/-- A 32-bit little-endian word from four bytes. -/
def le32 (bs : List Byte) : Nat :=
  (bs.getD 0 0).val + 256 * (bs.getD 1 0).val + 65536 * (bs.getD 2 0).val
    + 16777216 * (bs.getD 3 0).val

/-- Modelled from the spec: a concrete wire format, five 32-bit little-endian header words in
the order of the data model, and a body limit of 1 MiB. -/
def wire_format : FrameFormat :=
  { header_size := 20
    decode_header := fun bs =>
      { protocol_id := le32 bs, message_type := le32 (bs.drop 4), stream_type := le32 (bs.drop 8),
        sequence_number := le32 (bs.drop 12), body_length := le32 (bs.drop 16) }
    max_body := 1048576 }

/-! ## Sample FIFO (`_fifo`) -/

/-- Modelled from the spec: the ring buffer between receiver and consumer (`_fifo`, whose
pushes are in the absent `spyserver_source_c.cc`): "bounded capacity", with "a monotonically
increasing drop counter". `items` lists the unread entries, oldest first. -/
structure RingBuffer (α : Type) where
  capacity : Nat
  items : List α
  dropped : Nat
deriving DecidableEq, Repr

/-- An empty ring buffer of the given capacity, its drop counter at `dropped`. -/
def RingBuffer.empty {α : Type} (capacity dropped : Nat) : RingBuffer α :=
  { capacity := capacity, items := [], dropped := dropped }

/-- Modelled from the spec: the push of the absent `spyserver_source_c.cc`: "on overflow the
oldest unread samples are evicted and a drop counter increments", "never blocking the
producer". -/
def RingBuffer.push {α : Type} (rb : RingBuffer α) (x : α) : RingBuffer α :=
  if rb.items.length < rb.capacity then { rb with items := rb.items ++ [x] }
  else { rb with items := rb.items.drop 1 ++ [x], dropped := rb.dropped + 1 }

/-- Successive pushes with no pull in between. -/
def RingBuffer.push_all {α : Type} (rb : RingBuffer α) (xs : List α) : RingBuffer α :=
  xs.foldl RingBuffer.push rb

/-! ## Sample pipeline (`handle_new_message` on a sample frame) -/

/-- Modelled from the spec: the values of `streaming_mode`, "StreamingMode (tagged variant):
Uint8IQ, Int16IQ, FloatIQ, Uint8FFT". -/
inductive StreamingMode where
  | Uint8IQ
  | Int16IQ
  | FloatIQ
  | Uint8FFT
deriving DecidableEq, Repr

/-- Modelled from the spec: "Session state: one of Disconnected, Connecting, AwaitingHello,
AwaitingDeviceInfo, AwaitingSyncInfo, Ready, Streaming, Faulted". -/
inductive SessionState where
  | Disconnected
  | Connecting
  | AwaitingHello
  | AwaitingDeviceInfo
  | AwaitingSyncInfo
  | Ready
  | Streaming
  | Faulted
deriving DecidableEq, Repr

/-- Modelled from the spec: "DeviceInfo: device_type, min_tunable_frequency,
max_tunable_frequency, capability_flags, sample_rate_table" (the type is declared in the
absent `spyserver_protocol.h`). -/
structure DeviceInfo where
  device_type : Nat
  min_tunable_frequency : Nat
  max_tunable_frequency : Nat
  capability_flags : Nat
  sample_rate_table : List Double
deriving DecidableEq, Repr

/-- Modelled from the spec: "SyncInfo: can_control, current_gain, current_center_frequency,
decimation_stage_count". -/
structure SyncInfo where
  can_control : Bool
  current_gain : Double
  current_center_frequency : Double
  decimation_stage_count : Nat
deriving DecidableEq, Repr

/-- Modelled from the spec: the error taxonomy of the control facade. -/
inductive Error where
  | TransportError
  | ProtocolViolation
  | NegotiationTimeout
  | NotReady
deriving DecidableEq, Repr

/-- Modelled from the spec: the setting commands, each "a distinct setting-command payload". -/
inductive Command where
  | hello
  | set_center_frequency (freq : Double)
  | set_gain (gain : Double)
  | set_bandwidth (bandwidth : Double)
  | set_sample_rate (rate : Double)
  | set_streaming_mode (mode : StreamingMode)
  | set_streaming (enabled : Bool)
deriving DecidableEq, Repr

/-- The session fields of `spyserver_source_c` (`got_device_info`, `got_sync_info`,
`can_control`, `device_info`, `streaming_mode`, `_sample_rate`, `_center_freq`, `_gain`) with
the session state of the spec and the current bandwidth; `sent` lists the commands written
to the transport. -/
structure Session where
  state : SessionState
  got_device_info : Bool
  got_sync_info : Bool
  can_control : Bool
  device_info : DeviceInfo
  streaming_mode : StreamingMode
  _sample_rate : Double
  _center_freq : Double
  _gain : Double
  _bandwidth : Double
  sent : List Command
deriving DecidableEq, Repr

/-- A session before `connect`. -/
def Session.init : Session :=
  { state := .Disconnected, got_device_info := false, got_sync_info := false,
    can_control := false, device_info := ⟨0, 0, 0, 0, []⟩, streaming_mode := .Uint8IQ,
    _sample_rate := Double.zero, _center_freq := Double.zero, _gain := Double.zero,
    _bandwidth := Double.zero, sent := [] }

/-- Modelled from the spec: the guard of every command and getter that requires negotiation:
"only valid in states Ready or Streaming" (4.3), where DeviceInfo and SyncInfo are valid, "any
command requiring them fails fast otherwise" (3); "given DeviceInfo unset, any setter/getter
requiring negotiation returns NotReady" (8). -/
def Session.negotiated (s : Session) : Bool :=
  (decide (s.state = .Ready) || decide (s.state = .Streaming))
    && s.got_device_info && s.got_sync_info

/-- Modelled from the spec: `set_center_freq` (absent `spyserver_source_c.cc`): fails "with a
not negotiated error" before negotiation, else sends the command and reports "the requested
value optimistically". -/
def set_center_freq (s : Session) (freq : Double) : Except Error Double × Session :=
  if s.negotiated then
    (.ok freq,
      { s with _center_freq := freq, sent := s.sent ++ [Command.set_center_frequency freq] })
  else (.error .NotReady, s)

/-- Modelled from the spec: `get_center_freq` (absent `spyserver_source_c.cc`), derived from
the negotiated state. -/
def get_center_freq (s : Session) : Except Error Double × Session :=
  if s.negotiated then (.ok s._center_freq, s) else (.error .NotReady, s)

/-- Modelled from the spec: `set_gain` (absent `spyserver_source_c.cc`). -/
def set_gain (s : Session) (gain : Double) : Except Error Double × Session :=
  if s.negotiated then
    (.ok gain, { s with _gain := gain, sent := s.sent ++ [Command.set_gain gain] })
  else (.error .NotReady, s)

/-- Modelled from the spec: `get_gain` (absent `spyserver_source_c.cc`), the gain of the last
client-sync or the last request. -/
def get_gain (s : Session) : Except Error Double × Session :=
  if s.negotiated then (.ok s._gain, s) else (.error .NotReady, s)

/-- Modelled from the spec: `set_sample_rate` (absent `spyserver_source_c.cc`). -/
def set_sample_rate (s : Session) (rate : Double) : Except Error Double × Session :=
  if s.negotiated then
    (.ok rate, { s with _sample_rate := rate, sent := s.sent ++ [Command.set_sample_rate rate] })
  else (.error .NotReady, s)

/-- Modelled from the spec: `get_sample_rate` (absent `spyserver_source_c.cc`). -/
def get_sample_rate (s : Session) : Except Error Double × Session :=
  if s.negotiated then (.ok s._sample_rate, s) else (.error .NotReady, s)

/-- Modelled from the spec: `set_bandwidth` (absent `spyserver_source_c.cc`). -/
def set_bandwidth (s : Session) (bandwidth : Double) : Except Error Double × Session :=
  if s.negotiated then
    (.ok bandwidth,
      { s with _bandwidth := bandwidth, sent := s.sent ++ [Command.set_bandwidth bandwidth] })
  else (.error .NotReady, s)

/-- Modelled from the spec: `get_bandwidth` (absent `spyserver_source_c.cc`), the getter of
`set_bandwidth`, guarded like the other getters that require negotiation. -/
def get_bandwidth (s : Session) : Except Error Double × Session :=
  if s.negotiated then (.ok s._bandwidth, s) else (.error .NotReady, s)

/-- Modelled from the spec: what the receiver loop and the caller of the control facade can
make happen to a session: the steps of the handshake, streaming start and stop, errors,
disconnection, and the calls of the setters. -/
inductive Event where
  | connect
  | connected
  | hello_ack
  | device_info (info : DeviceInfo)
  | client_sync (sync : SyncInfo)
  | start_streaming (mode : StreamingMode)
  | stop_streaming
  | error
  | disconnect
  | set_center_freq (freq : Double)
  | set_gain (gain : Double)
  | set_sample_rate (rate : Double)
  | set_bandwidth (bandwidth : Double)
deriving DecidableEq, Repr

/-- Modelled from the spec: DeviceInfo and SyncInfo are "invalidated on disconnect". -/
def Session.invalidate (s : Session) (state : SessionState) : Session :=
  { s with state := state, got_device_info := false, got_sync_info := false,
           can_control := false }

/-- Modelled from the spec: the transitions of the protocol state machine (absent
`spyserver_source_c.cc`). The handshake runs Disconnected, Connecting, AwaitingHello,
AwaitingDeviceInfo, AwaitingSyncInfo, Ready; a message that the current state does not expect
and every transport or decode error fault the session; `disconnect` and the reconnect path
tear the session down; a setter call leaves the session as the setter returns it. -/
def Session.step (s : Session) : Event → Session
  | .connect =>
    match s.state with
    | .Disconnected => { s with state := .Connecting }
    | .Faulted => s.invalidate .Connecting
    | _ => s
  | .connected =>
    match s.state with
    | .Connecting => { s with state := .AwaitingHello, sent := s.sent ++ [Command.hello] }
    | _ => s
  | .hello_ack =>
    match s.state with
    | .AwaitingHello => { s with state := .AwaitingDeviceInfo }
    | .Disconnected => s
    | _ => { s with state := .Faulted }
  | .device_info info =>
    match s.state with
    | .AwaitingDeviceInfo =>
      { s with state := .AwaitingSyncInfo, got_device_info := true, device_info := info }
    | .Disconnected => s
    | _ => { s with state := .Faulted }
  | .client_sync sync =>
    match s.state with
    | .AwaitingSyncInfo =>
      { s with state := .Ready, got_sync_info := true, can_control := sync.can_control,
               _gain := sync.current_gain, _center_freq := sync.current_center_frequency }
    | .Ready =>
      { s with can_control := sync.can_control, _gain := sync.current_gain,
               _center_freq := sync.current_center_frequency }
    | .Streaming =>
      { s with can_control := sync.can_control, _gain := sync.current_gain,
               _center_freq := sync.current_center_frequency }
    | .Disconnected => s
    | _ => { s with state := .Faulted }
  | .start_streaming mode =>
    match s.state with
    | .Ready =>
      { s with state := .Streaming, streaming_mode := mode,
               sent := s.sent ++ [Command.set_streaming_mode mode, Command.set_streaming true] }
    | _ => s
  | .stop_streaming =>
    match s.state with
    | .Streaming => { s with state := .Ready, sent := s.sent ++ [Command.set_streaming false] }
    | _ => s
  | .error =>
    match s.state with
    | .Disconnected => s
    | _ => { s with state := .Faulted }
  | .disconnect => s.invalidate .Disconnected
  | .set_center_freq freq => (set_center_freq s freq).2
  | .set_gain gain => (set_gain s gain).2
  | .set_sample_rate rate => (set_sample_rate s rate).2
  | .set_bandwidth bandwidth => (set_bandwidth s bandwidth).2

/-- The session after a run of events from a fresh session. -/
def Session.run (events : List Event) : Session :=
  events.foldl Session.step Session.init

/-- What every session reached by a run satisfies: from AwaitingSyncInfo on DeviceInfo has
been received, and in Ready and Streaming SyncInfo too. -/
def Session.inv (s : Session) : Prop :=
  ((s.state = .AwaitingSyncInfo ∨ s.state = .Ready ∨ s.state = .Streaming) →
      s.got_device_info = true) ∧
    ((s.state = .Ready ∨ s.state = .Streaming) → s.got_sync_info = true)

end SpyServer

namespace PlutoSDR

/-! ## `plutosdr_source_c`

The methods take the object state as an argument and return the new state with the result.
The channel argument `chan`, which every method ignores, is left out. A method whose
conversion of a `double` to an unsigned integer type is undefined returns `none`. -/

/-- The argument dictionary `dict_t` (a `std::map` of strings) returned by `params_to_dict`. -/
abbrev dict_t := List (String × String)

/-- The expression `dict.count(key)`. -/
def dict_t.count (dict : dict_t) (key : String) : Nat :=
  if (dict.lookup key).isSome then 1 else 0

/-- The expression `dict[key]` for a key that is present (the empty string otherwise). -/
def dict_t.get (dict : dict_t) (key : String) : String :=
  (dict.lookup key).getD ""

/-- The wrapped block `gr::iio::pluto_source`: what `make` and `set_params` were last given. -/
structure pluto_source where
  uri : String
  frequency : Nat
  samplerate : Nat
  bandwidth : Nat
  buffer_size : Nat
  quadrature : Bool
  rfdc : Bool
  bbdc : Bool
  gain : String
  gain_value : Double
  filter : String
  auto_filter : Bool
deriving DecidableEq, Repr

/-- The data members of `plutosdr_source_c`. -/
structure plutosdr_source_c where
  _src : pluto_source
  uri : String
  frequency : Nat
  samplerate : Nat
  decimation : Nat
  bandwidth : Nat
  buffer_size : Nat
  quadrature : Bool
  rfdc : Bool
  bbdc : Bool
  gain_auto : Bool
  gain_value : Double
  filter : String
  filter_auto : Bool
  _freq_corr : Double
deriving DecidableEq, Repr

namespace plutosdr_source_c

/-- The constructor `plutosdr_source_c::plutosdr_source_c`, from the dictionary
`params_to_dict(args)`. -/
def new (dict : dict_t) : plutosdr_source_c :=
  let uri := if dict.count "uri" ≠ 0 then dict.get "uri" else "ip:pluto.local"
  { _src :=
      { uri := uri, frequency := 434000000, samplerate := 2500000, bandwidth := 2000000,
        buffer_size := 0x4000, quadrature := true, rfdc := true, bbdc := true,
        gain := "manual", gain_value := Double.ofNat 50, filter := "", auto_filter := true }
    uri := uri
    frequency := 434000000
    samplerate := 2500000
    decimation := 0
    bandwidth := 2000000
    buffer_size := 0x4000
    quadrature := true
    rfdc := true
    bbdc := true
    gain_auto := false
    gain_value := Double.ofNat 50
    filter := ""
    filter_auto := true
    _freq_corr := Double.zero }

/-- The value `(double)frequency * (1.0 + _freq_corr * 0.000001)` converted to
`unsigned long long`, the local `freq` of `set_params`. -/
def corrected_freq (frequency : Nat) (_freq_corr : Double) : Option Nat :=
  Double.toUInt64
    (Double.mul (Double.ofNat frequency)
      (Double.add Double.one (Double.mul _freq_corr Double.lit_0_000001)))

/-- The method `set_params`: forwards the stored parameters to the wrapped block. -/
def set_params (s : plutosdr_source_c) : Option plutosdr_source_c :=
  match corrected_freq s.frequency s._freq_corr with
  | none => none
  | some freq =>
    some { s with
      _src := { s._src with
        frequency := freq, samplerate := s.samplerate, bandwidth := s.bandwidth,
        quadrature := s.quadrature, rfdc := s.rfdc, bbdc := s.bbdc,
        gain := if s.gain_auto then "fast_attack" else "manual",
        gain_value := s.gain_value, filter := s.filter, auto_filter := s.filter_auto } }

/-- The method `set_sample_rate`. -/
def set_sample_rate (s : plutosdr_source_c) (rate : Double) :
    Option (plutosdr_source_c × Double) :=
  match Double.toUInt64 rate with
  | none => none
  | some samplerate =>
    match set_params { s with samplerate := samplerate } with
    | none => none
    | some s' => some (s', Double.ofNat s'.samplerate)

/-- The method `get_sample_rate`. -/
def get_sample_rate (s : plutosdr_source_c) : Double := Double.ofNat s.samplerate

/-- The method `set_center_freq`. -/
def set_center_freq (s : plutosdr_source_c) (freq : Double) :
    Option (plutosdr_source_c × Double) :=
  match Double.toUInt64 freq with
  | none => none
  | some frequency =>
    match set_params { s with frequency := frequency } with
    | none => none
    | some s' => some (s', freq)

/-- The method `get_center_freq`. -/
def get_center_freq (s : plutosdr_source_c) : Double := Double.ofNat s.frequency

/-- The method `set_freq_corr`. -/
def set_freq_corr (s : plutosdr_source_c) (ppm : Double) :
    Option (plutosdr_source_c × Double) :=
  match set_params { s with _freq_corr := ppm } with
  | none => none
  | some s' => some (s', ppm)

/-- The method `get_freq_corr`. -/
def get_freq_corr (s : plutosdr_source_c) : Double := s._freq_corr

/-- The method `set_gain_mode`. -/
def set_gain_mode (s : plutosdr_source_c) (automatic : Bool) :
    Option (plutosdr_source_c × Bool) :=
  match set_params { s with gain_auto := automatic } with
  | none => none
  | some s' => some (s', automatic)

/-- The method `get_gain_mode`. -/
def get_gain_mode (s : plutosdr_source_c) : Bool := s.gain_auto

/-- The two overloads of `set_gain`, with and without a gain name; both do the same. -/
def set_gain (s : plutosdr_source_c) (gain : Double) : Option (plutosdr_source_c × Double) :=
  match set_params { s with gain_value := gain } with
  | none => none
  | some s' => some (s', gain)

/-- The two overloads of `get_gain`. -/
def get_gain (s : plutosdr_source_c) : Double := s.gain_value

/-- The method `get_antenna`. -/
def get_antenna (_s : plutosdr_source_c) : String := "A_BALANCED"

/-- The method `set_antenna`. -/
def set_antenna (s : plutosdr_source_c) (_antenna : String) : plutosdr_source_c × String :=
  (s, get_antenna s)

/-- The method `set_bandwidth`; the test `bw == 0.0` is that of a zero significand. -/
def set_bandwidth (s : plutosdr_source_c) (bw : Double) : Option (plutosdr_source_c × Double) :=
  let bw := if bw.m = 0 then Double.mul Double.lit_0_8 (Double.ofNat s.samplerate) else bw
  match Double.toUInt64 bw with
  | none => none
  | some bandwidth =>
    match set_params { s with bandwidth := bandwidth } with
    | none => none
    | some s' => some (s', Double.ofNat s'.bandwidth)

/-- The method `get_bandwidth`. -/
def get_bandwidth (s : plutosdr_source_c) : Double := Double.ofNat s.bandwidth

end plutosdr_source_c

end PlutoSDR

/-! ## Properties of the `double` arithmetic -/

theorem bitlenAux_spec : ∀ (fuel n : Nat), n ≤ fuel →
    n < 2 ^ bitlenAux fuel n ∧ (n ≠ 0 → 2 ^ (bitlenAux fuel n - 1) ≤ n) := by
  intro fuel
  induction fuel with
  | zero =>
    intro n hn
    have : n = 0 := by omega
    subst this
    simp [bitlenAux]
  | succ f ih =>
    intro n hn
    unfold bitlenAux
    by_cases h0 : n = 0
    · simp [h0]
    · simp only [h0, if_false, Nat.add_sub_cancel]
      have hih := ih (n / 2) (by omega)
      refine ⟨?_, fun _ => ?_⟩
      · rw [pow_succ]; omega
      · by_cases h2 : n / 2 = 0
        · have hb : bitlenAux f (n / 2) = 0 := by
            rw [h2]; cases f <;> simp [bitlenAux]
          rw [hb]; simp; omega
        · have h3 := hih.2 h2
          have hpos : bitlenAux f (n / 2) ≠ 0 := by
            intro hz
            have := hih.1
            rw [hz] at this
            simp at this
            exact h2 this
          obtain ⟨b, hb⟩ := Nat.exists_eq_succ_of_ne_zero hpos
          rw [hb] at h3 ⊢
          simp only [Nat.succ_eq_add_one, Nat.add_sub_cancel] at h3
          rw [Nat.succ_eq_add_one, pow_succ]
          omega

theorem lt_two_pow_bitlen (n : Nat) : n < 2 ^ bitlen n := (bitlenAux_spec n n le_rfl).1

theorem two_pow_bitlen_le (n : Nat) (h : n ≠ 0) : 2 ^ (bitlen n - 1) ≤ n :=
  (bitlenAux_spec n n le_rfl).2 h

namespace Double

theorem roundNat_mant (n : Nat) (hn : n ≠ 0) :
    2 ^ 52 ≤ (roundNat n).1 ∧ (roundNat n).1 < 2 ^ 53 := by
  have hlt := lt_two_pow_bitlen n
  have hle := two_pow_bitlen_le n hn
  unfold roundNat
  by_cases hb : bitlen n ≤ 53
  · simp only [hb, if_true]
    have hpos : 1 ≤ bitlen n := by
      by_contra h
      have : bitlen n = 0 := by omega
      rw [this] at hlt
      simp at hlt
      exact hn hlt
    have e1 : (2 : Nat) ^ 53 = 2 ^ bitlen n * 2 ^ (53 - bitlen n) := by
      rw [← pow_add]; congr 1; omega
    have e2 : (2 : Nat) ^ 52 = 2 ^ (bitlen n - 1) * 2 ^ (53 - bitlen n) := by
      rw [← pow_add]; congr 1; omega
    have hp : 0 < (2 : Nat) ^ (53 - bitlen n) := Nat.pow_pos (by norm_num)
    constructor
    · rw [e2]; exact Nat.mul_le_mul_right _ hle
    · rw [e1]; exact Nat.mul_lt_mul_of_pos_right hlt hp
  · simp only [hb, if_false]
    have hK : 0 < (2 : Nat) ^ (bitlen n - 53) := Nat.pow_pos (by norm_num)
    have e1 : (2 : Nat) ^ bitlen n = 2 ^ 53 * 2 ^ (bitlen n - 53) := by
      rw [← pow_add]; congr 1; omega
    have e2 : (2 : Nat) ^ (bitlen n - 1) = 2 ^ 52 * 2 ^ (bitlen n - 53) := by
      rw [← pow_add]; congr 1; omega
    have hq1 : 2 ^ 52 ≤ n / 2 ^ (bitlen n - 53) := by
      rw [Nat.le_div_iff_mul_le hK, ← e2]; exact hle
    have hq2 : n / 2 ^ (bitlen n - 53) < 2 ^ 53 := by
      rw [Nat.div_lt_iff_lt_mul hK, ← e1]; exact hlt
    split_ifs with h1 h2 h3
    · exact ⟨le_refl _, by norm_num⟩
    · exact ⟨by omega, by omega⟩
    · exact ⟨le_refl _, by norm_num⟩
    · exact ⟨by omega, by omega⟩

/-- How `roundNat` rounds: the result is `n` itself, or `n = q * 2^k + r` with a 53-bit `q` and
the result is the nearer of `q * 2^k` and `(q + 1) * 2^k`. -/
theorem roundNat_cases (n : Nat) (hn : n ≠ 0) :
    ((roundNat n).1 : ℚ) * (2 : ℚ) ^ (roundNat n).2 = (n : ℚ) ∨
      ∃ k q r q' : Nat, n = q * 2 ^ k + r ∧ r < 2 ^ k ∧ 2 ^ 52 ≤ q ∧ q < 2 ^ 53 ∧
        ((roundNat n).1 : ℚ) * (2 : ℚ) ^ (roundNat n).2 = (q' : ℚ) * (2 : ℚ) ^ k ∧
        ((q' = q ∧ 2 * r ≤ 2 ^ k) ∨ (q' = q + 1 ∧ 2 ^ k ≤ 2 * r)) := by
  have hlt := lt_two_pow_bitlen n
  have hle := two_pow_bitlen_le n hn
  by_cases hb : bitlen n ≤ 53
  · left
    simp only [roundNat, hb, if_true]
    rw [zpow_neg, zpow_natCast]
    push_cast
    have : ((2 : ℚ) ^ (53 - bitlen n)) ≠ 0 := by positivity
    field_simp
  · right
    have hK : 0 < (2 : Nat) ^ (bitlen n - 53) := Nat.pow_pos (by norm_num)
    have e1 : (2 : Nat) ^ bitlen n = 2 ^ 53 * 2 ^ (bitlen n - 53) := by
      rw [← pow_add]; congr 1; omega
    have e2 : (2 : Nat) ^ (bitlen n - 1) = 2 ^ 52 * 2 ^ (bitlen n - 53) := by
      rw [← pow_add]; congr 1; omega
    have hq1 : 2 ^ 52 ≤ n / 2 ^ (bitlen n - 53) := by
      rw [Nat.le_div_iff_mul_le hK, ← e2]; exact hle
    have hq2 : n / 2 ^ (bitlen n - 53) < 2 ^ 53 := by
      rw [Nat.div_lt_iff_lt_mul hK, ← e1]; exact hlt
    have hdm : n = n / 2 ^ (bitlen n - 53) * 2 ^ (bitlen n - 53) + n % 2 ^ (bitlen n - 53) := by
      rw [Nat.mul_comm]; exact (Nat.div_add_mod n _).symm
    have hr : n % 2 ^ (bitlen n - 53) < 2 ^ (bitlen n - 53) := Nat.mod_lt _ hK
    by_cases hup : 2 ^ (bitlen n - 53) < 2 * (n % 2 ^ (bitlen n - 53)) ∨
        (2 * (n % 2 ^ (bitlen n - 53)) = 2 ^ (bitlen n - 53) ∧
          n / 2 ^ (bitlen n - 53) % 2 = 1)
    · refine ⟨bitlen n - 53, n / 2 ^ (bitlen n - 53), n % 2 ^ (bitlen n - 53),
        n / 2 ^ (bitlen n - 53) + 1, hdm, hr, hq1, hq2, ?_, Or.inr ⟨rfl, ?_⟩⟩
      · simp only [roundNat, hb, if_false, hup, if_true]
        split_ifs with h53
        · rw [h53]
          rw [zpow_add₀ (by norm_num : (2 : ℚ) ≠ 0), zpow_natCast]
          push_cast
          ring
        · rw [zpow_natCast]
      · rcases hup with h | h
        · omega
        · omega
    · refine ⟨bitlen n - 53, n / 2 ^ (bitlen n - 53), n % 2 ^ (bitlen n - 53),
        n / 2 ^ (bitlen n - 53), hdm, hr, hq1, hq2, ?_, Or.inl ⟨rfl, ?_⟩⟩
      · simp only [roundNat, hb, if_false, hup]
        have h53 : ¬ n / 2 ^ (bitlen n - 53) = 2 ^ 53 := by omega
        simp only [h53, if_false]
        rw [zpow_natCast]
      · by_contra hc
        apply hup
        left
        omega

/-- No `double` lies strictly between `q * 2^k` and `(q + 1) * 2^k` when `q` has 53 bits. -/
theorem repr_gap (a : Nat) (j : Int) (ha : a < 2 ^ 53) (q k : Nat) (hq : 2 ^ 52 ≤ q) :
    (a : ℚ) * (2 : ℚ) ^ j ≤ (q : ℚ) * (2 : ℚ) ^ k ∨
      ((q : ℚ) + 1) * (2 : ℚ) ^ k ≤ (a : ℚ) * (2 : ℚ) ^ j := by
  have hK : (0 : ℚ) < (2 : ℚ) ^ k := by positivity
  by_cases hj : (k : Int) ≤ j
  · obtain ⟨t, ht⟩ := Int.eq_ofNat_of_zero_le (sub_nonneg.mpr hj)
    have hj' : j = (t : Int) + (k : Int) := by omega
    have hy : (a : ℚ) * (2 : ℚ) ^ j = ((a * 2 ^ t : Nat) : ℚ) * (2 : ℚ) ^ k := by
      rw [hj', zpow_add₀ (by norm_num : (2 : ℚ) ≠ 0), zpow_natCast, zpow_natCast]
      push_cast
      ring
    rw [hy]
    by_cases hc : a * 2 ^ t ≤ q
    · left
      exact mul_le_mul_of_nonneg_right (by exact_mod_cast hc) hK.le
    · right
      have hc' : q + 1 ≤ a * 2 ^ t := by omega
      exact mul_le_mul_of_nonneg_right (by exact_mod_cast hc') hK.le
  · left
    have hj' : j ≤ (k : Int) - 1 := by omega
    have h1 : (2 : ℚ) ^ j ≤ (2 : ℚ) ^ ((k : Int) - 1) :=
      zpow_le_zpow_right₀ (by norm_num) hj'
    have h2 : (2 : ℚ) ^ ((k : Int) - 1) = (2 : ℚ) ^ k / 2 := by
      rw [zpow_sub₀ (by norm_num : (2 : ℚ) ≠ 0), zpow_natCast, zpow_one]
    have ha' : (a : ℚ) ≤ 2 ^ 53 := by exact_mod_cast ha.le
    have hq' : (2 : ℚ) ^ 52 ≤ (q : ℚ) := by exact_mod_cast hq
    have ha0 : (0 : ℚ) ≤ (a : ℚ) := Nat.cast_nonneg a
    calc (a : ℚ) * (2 : ℚ) ^ j ≤ (a : ℚ) * ((2 : ℚ) ^ k / 2) := by
            rw [← h2]; exact mul_le_mul_of_nonneg_left h1 ha0
      _ ≤ 2 ^ 53 * ((2 : ℚ) ^ k / 2) := mul_le_mul_of_nonneg_right ha' (by positivity)
      _ = 2 ^ 52 * (2 : ℚ) ^ k := by ring
      _ ≤ (q : ℚ) * (2 : ℚ) ^ k := mul_le_mul_of_nonneg_right hq' hK.le

/-- The result of `roundNat` is at least as near to `n` as any non-negative `double`. -/
theorem roundNat_nearest (n : Nat) (hn : n ≠ 0) (a : Nat) (j : Int) (ha : a < 2 ^ 53) :
    |((roundNat n).1 : ℚ) * (2 : ℚ) ^ (roundNat n).2 - (n : ℚ)|
      ≤ |(a : ℚ) * (2 : ℚ) ^ j - (n : ℚ)| := by
  rcases roundNat_cases n hn with h | ⟨k, q, r, q', hdm, hr, hq1, _, hV, hq'⟩
  · rw [h, sub_self, abs_zero]; exact abs_nonneg _
  · rw [hV]
    have hK : (0 : ℚ) < (2 : ℚ) ^ k := by positivity
    have hn' : (n : ℚ) = (q : ℚ) * (2 : ℚ) ^ k + (r : ℚ) := by
      rw [hdm]; push_cast; ring
    have hr0 : (0 : ℚ) ≤ (r : ℚ) := Nat.cast_nonneg r
    have hgap := repr_gap a j ha q k hq1
    rcases hq' with ⟨hqq, h2r⟩ | ⟨hqq, h2r⟩
    · have h2r' : 2 * (r : ℚ) ≤ (2 : ℚ) ^ k := by exact_mod_cast h2r
      rw [hqq, hn']
      have e : (q : ℚ) * (2 : ℚ) ^ k - ((q : ℚ) * (2 : ℚ) ^ k + (r : ℚ)) = -(r : ℚ) := by ring
      rw [e, abs_neg, abs_of_nonneg hr0]
      rcases hgap with hg | hg
      · calc (r : ℚ) ≤ -((a : ℚ) * (2 : ℚ) ^ j - ((q : ℚ) * (2 : ℚ) ^ k + (r : ℚ))) := by
              linarith
          _ ≤ _ := neg_le_abs _
      · calc (r : ℚ) ≤ (a : ℚ) * (2 : ℚ) ^ j - ((q : ℚ) * (2 : ℚ) ^ k + (r : ℚ)) := by
              linarith
          _ ≤ _ := le_abs_self _
    · have h2r' : (2 : ℚ) ^ k ≤ 2 * (r : ℚ) := by exact_mod_cast h2r
      have hr' : (r : ℚ) < (2 : ℚ) ^ k := by exact_mod_cast hr
      rw [hqq, hn']
      have e : ((q + 1 : Nat) : ℚ) * (2 : ℚ) ^ k - ((q : ℚ) * (2 : ℚ) ^ k + (r : ℚ))
          = (2 : ℚ) ^ k - (r : ℚ) := by push_cast; ring
      rw [e, abs_of_nonneg (by linarith)]
      rcases hgap with hg | hg
      · calc (2 : ℚ) ^ k - (r : ℚ)
              ≤ -((a : ℚ) * (2 : ℚ) ^ j - ((q : ℚ) * (2 : ℚ) ^ k + (r : ℚ))) := by linarith
          _ ≤ _ := neg_le_abs _
      · calc (2 : ℚ) ^ k - (r : ℚ)
              ≤ (a : ℚ) * (2 : ℚ) ^ j - ((q : ℚ) * (2 : ℚ) ^ k + (r : ℚ)) := by linarith
          _ ≤ _ := le_abs_self _

theorem round_wf (m e : Int) : (round m e).wf = true := by
  unfold round
  by_cases hm : m = 0
  · simp [hm, wf]
  · simp only [hm, if_false, wf]
    have hn : m.natAbs ≠ 0 := Int.natAbs_ne_zero.mpr hm
    have hb := roundNat_mant m.natAbs hn
    have hs : (Int.sign m * ((roundNat m.natAbs).1 : Int)).natAbs = (roundNat m.natAbs).1 := by
      rw [Int.natAbs_mul, Int.natAbs_sign, if_neg hm, Int.natAbs_ofNat, Nat.one_mul]
    rw [hs]
    simp only [Bool.or_eq_true, Bool.and_eq_true, decide_eq_true_eq]
    right
    exact hb

theorem toRat_round (m e : Int) (hm : m ≠ 0) :
    toRat (round m e)
      = (Int.sign m : ℚ)
        * (((roundNat m.natAbs).1 : ℚ) * (2 : ℚ) ^ (roundNat m.natAbs).2) * (2 : ℚ) ^ e := by
  unfold round toRat
  simp only [hm, if_false]
  rw [zpow_add₀ (by norm_num : (2 : ℚ) ≠ 0)]
  push_cast
  ring

theorem cast_eq_sign_mul_natAbs (m : Int) : (m : ℚ) = (Int.sign m : ℚ) * (m.natAbs : ℚ) := by
  have h := Int.sign_mul_natAbs m
  have h' : ((Int.sign m * (m.natAbs : Int) : Int) : ℚ) = (m : ℚ) := by rw [h]
  rw [← h', Int.cast_mul, Int.cast_natCast]

theorem sign_sq (m : Int) (hm : m ≠ 0) : (Int.sign m : ℚ) * (Int.sign m : ℚ) = 1 := by
  rcases lt_or_gt_of_ne hm with h | h
  · rw [Int.sign_eq_neg_one_of_neg h]; norm_num
  · rw [Int.sign_eq_one_of_pos h]; norm_num

theorem abs_sign (m : Int) (hm : m ≠ 0) : |(Int.sign m : ℚ)| = 1 := by
  rcases lt_or_gt_of_ne hm with h | h
  · rw [Int.sign_eq_neg_one_of_neg h]; norm_num
  · rw [Int.sign_eq_one_of_pos h]; norm_num

/-- Rounding is to nearest: the value of `round m e` is at least as near to `m * 2^e` as the
value of any `double`. -/
theorem toRat_round_nearest (m e : Int) (y : ℚ) (hy : Repr53 y) :
    |toRat (round m e) - (m : ℚ) * (2 : ℚ) ^ e| ≤ |y - (m : ℚ) * (2 : ℚ) ^ e| := by
  by_cases hm : m = 0
  · subst hm
    simp [round, toRat]
  · obtain ⟨my, jy, hmy, hyv⟩ := hy
    have hn : m.natAbs ≠ 0 := Int.natAbs_ne_zero.mpr hm
    have hE : (0 : ℚ) < (2 : ℚ) ^ e := zpow_pos (by norm_num) e
    have hn0 : (0 : ℚ) < (m.natAbs : ℚ) := by exact_mod_cast Nat.pos_of_ne_zero hn
    rw [toRat_round m e hm]
    set s : ℚ := (Int.sign m : ℚ) with hs
    set V : ℚ := ((roundNat m.natAbs).1 : ℚ) * (2 : ℚ) ^ (roundNat m.natAbs).2 with hV
    have hss : s * s = 1 := sign_sq m hm
    have hsabs : |s| = 1 := abs_sign m hm
    have hmq : (m : ℚ) = s * (m.natAbs : ℚ) := cast_eq_sign_mul_natAbs m
    -- left side
    have hL : s * V * (2 : ℚ) ^ e - (m : ℚ) * (2 : ℚ) ^ e
        = s * ((V - (m.natAbs : ℚ)) * (2 : ℚ) ^ e) := by rw [hmq]; ring
    -- right side
    have hR : y - (m : ℚ) * (2 : ℚ) ^ e
        = s * ((s * y / (2 : ℚ) ^ e - (m.natAbs : ℚ)) * (2 : ℚ) ^ e) := by
      have hdiv : (s * y / (2 : ℚ) ^ e - (m.natAbs : ℚ)) * (2 : ℚ) ^ e
          = s * y - (m.natAbs : ℚ) * (2 : ℚ) ^ e := by
        field_simp
        ring
      rw [hmq, hdiv]
      linear_combination (-y) * hss
    rw [hL, hR, abs_mul s, abs_mul s, hsabs, one_mul, one_mul,
      abs_mul (V - (m.natAbs : ℚ)), abs_mul (s * y / (2 : ℚ) ^ e - (m.natAbs : ℚ)),
      abs_of_pos hE]
    apply mul_le_mul_of_nonneg_right _ hE.le
    -- the scaled competitor
    have hz : s * y / (2 : ℚ) ^ e = ((Int.sign m * my : Int) : ℚ) * (2 : ℚ) ^ (jy - e) := by
      rw [hyv, zpow_sub₀ (by norm_num : (2 : ℚ) ≠ 0)]
      push_cast
      ring
    rw [hz]
    by_cases hneg : 0 ≤ Int.sign m * my
    · obtain ⟨a, ha⟩ := Int.eq_ofNat_of_zero_le hneg
      have haa : a < 2 ^ 53 := by
        have : a = (Int.sign m * my).natAbs := by rw [ha]; rfl
        rw [this, Int.natAbs_mul, Int.natAbs_sign, if_neg hm, Nat.one_mul]
        exact hmy
      rw [ha]
      have := roundNat_nearest m.natAbs hn a (jy - e) haa
      simpa using this
    · have hlt : ((Int.sign m * my : Int) : ℚ) < 0 := by
        exact_mod_cast (not_le.mp hneg)
      have hP : (0 : ℚ) < (2 : ℚ) ^ (jy - e) := zpow_pos (by norm_num) _
      have hzneg : ((Int.sign m * my : Int) : ℚ) * (2 : ℚ) ^ (jy - e) < 0 :=
        mul_neg_of_neg_of_pos hlt hP
      have h0 := roundNat_nearest m.natAbs hn 0 0 (by norm_num)
      simp only [Nat.cast_zero, zero_mul, zero_sub, abs_neg] at h0
      rw [abs_of_pos hn0] at h0
      calc |V - (m.natAbs : ℚ)| ≤ (m.natAbs : ℚ) := h0
        _ ≤ -(((Int.sign m * my : Int) : ℚ) * (2 : ℚ) ^ (jy - e) - (m.natAbs : ℚ)) := by
            linarith
        _ ≤ _ := neg_le_abs _

theorem wf_natAbs_lt (d : Double) (h : d.wf = true) : d.m.natAbs < 2 ^ 53 := by
  unfold wf at h
  simp only [Bool.or_eq_true, Bool.and_eq_true, decide_eq_true_eq] at h
  rcases h with ⟨h0, _⟩ | ⟨_, h2⟩
  · rw [h0]; norm_num
  · exact h2

theorem Repr53_toRat (d : Double) (h : d.wf = true) : Repr53 d.toRat :=
  ⟨d.m, d.e, wf_natAbs_lt d h, rfl⟩

theorem Repr53_natCast (n : Nat) (h : n < 2 ^ 53) : Repr53 (n : ℚ) :=
  ⟨(n : Int), 0, by simpa using h, by simp⟩

/-- Rounding leaves the value of a `double` unchanged. -/
theorem round_exact (m e : Int) (h : Repr53 ((m : ℚ) * (2 : ℚ) ^ e)) :
    toRat (round m e) = (m : ℚ) * (2 : ℚ) ^ e := by
  have := toRat_round_nearest m e _ h
  rw [sub_self, abs_zero] at this
  have h0 := abs_eq_zero.mp (le_antisymm this (abs_nonneg _))
  linarith

/-- Rounding is monotone. -/
theorem round_mono (m₁ e₁ m₂ e₂ : Int)
    (h : (m₁ : ℚ) * (2 : ℚ) ^ e₁ < (m₂ : ℚ) * (2 : ℚ) ^ e₂) :
    toRat (round m₁ e₁) ≤ toRat (round m₂ e₂) := by
  by_contra hc
  have hc : toRat (round m₂ e₂) < toRat (round m₁ e₁) := not_le.mp hc
  have h1 := toRat_round_nearest m₁ e₁ _ (Repr53_toRat _ (round_wf m₂ e₂))
  have h2 := toRat_round_nearest m₂ e₂ _ (Repr53_toRat _ (round_wf m₁ e₁))
  set a := toRat (round m₁ e₁)
  set b := toRat (round m₂ e₂)
  set X₁ := (m₁ : ℚ) * (2 : ℚ) ^ e₁
  set X₂ := (m₂ : ℚ) * (2 : ℚ) ^ e₂
  have ha1 : a - X₁ ≤ |a - X₁| := le_abs_self _
  have hb2 : -(b - X₂) ≤ |b - X₂| := neg_le_abs _
  rcases le_or_lt 0 (b - X₁) with hb | hb
  · rw [abs_of_nonneg hb] at h1; linarith
  · rw [abs_of_neg hb] at h1
    rcases le_or_lt (a - X₂) 0 with ha | ha
    · rw [abs_of_nonpos ha] at h2; linarith
    · rw [abs_of_pos ha] at h2; linarith

theorem ext_me (a b : Double) (h1 : a.m = b.m) (h2 : a.e = b.e) : a = b := by
  cases a; cases b
  dsimp only at h1 h2
  subst h1; subst h2
  rfl

/-- A value has one `double` only. -/
theorem wf_unique (a b : Double) (ha : a.wf = true) (hb : b.wf = true)
    (h : a.toRat = b.toRat) : a = b := by
  have key : ∀ a b : Double, a.wf = true → b.wf = true → a.toRat = b.toRat → a.e ≤ b.e →
      a = b := by
    intro a b ha hb h hle
    unfold toRat at h
    have hA : (0 : ℚ) < (2 : ℚ) ^ a.e := zpow_pos (by norm_num) _
    obtain ⟨t, ht⟩ := Int.eq_ofNat_of_zero_le (sub_nonneg.mpr hle)
    have hbe : b.e = a.e + (t : Int) := by omega
    have hm : a.m = b.m * 2 ^ t := by
      rw [hbe, zpow_add₀ (by norm_num : (2 : ℚ) ≠ 0), zpow_natCast] at h
      have h' : (a.m : ℚ) = (b.m : ℚ) * (2 : ℚ) ^ t := by
        have : (a.m : ℚ) * (2 : ℚ) ^ a.e = ((b.m : ℚ) * (2 : ℚ) ^ t) * (2 : ℚ) ^ a.e := by
          rw [h]; ring
        exact mul_right_cancel₀ hA.ne' this
      exact_mod_cast h'
    have hna := wf_natAbs_lt a ha
    unfold wf at ha hb
    simp only [Bool.or_eq_true, Bool.and_eq_true, decide_eq_true_eq] at ha hb
    rcases hb with ⟨hb0, hbe0⟩ | ⟨hb1, hb2⟩
    · have ham : a.m = 0 := by rw [hm, hb0]; simp
      rcases ha with ⟨_, hae0⟩ | ⟨ha1, _⟩
      · exact ext_me a b (by rw [ham, hb0]) (by rw [hae0, hbe0])
      · rw [ham] at ha1; norm_num at ha1
    · have hnat : a.m.natAbs = b.m.natAbs * 2 ^ t := by
        rw [hm, Int.natAbs_mul, Int.natAbs_pow]; rfl
      have ht0 : t = 0 := by
        by_contra hne
        have h2t : 2 ≤ 2 ^ t := by
          calc 2 = 2 ^ 1 := by norm_num
            _ ≤ 2 ^ t := Nat.pow_le_pow_right (by norm_num) (Nat.one_le_iff_ne_zero.mpr hne)
        have : 2 ^ 52 * 2 ≤ b.m.natAbs * 2 ^ t := Nat.mul_le_mul hb1 h2t
        omega
      subst ht0
      have hm' : a.m = b.m := by simpa using hm
      have he' : a.e = b.e := by omega
      exact ext_me a b hm' he'
  rcases le_total a.e b.e with hle | hle
  · exact key a b ha hb h hle
  · exact (key b a hb ha h.symm hle).symm

theorem toRat_le_cases (a b : Double) (ha : a.wf = true) (hb : b.wf = true)
    (h : a.toRat ≤ b.toRat) : a = b ∨ a.toRat < b.toRat := by
  rcases eq_or_lt_of_le h with h | h
  · exact Or.inl (wf_unique a b ha hb h)
  · exact Or.inr h

theorem mul_wf (a b : Double) : (mul a b).wf = true := round_wf _ _

theorem add_wf (a b : Double) : (add a b).wf = true := round_wf _ _

theorem ofNat_wf (n : Nat) : (ofNat n).wf = true := round_wf _ _

/-- The exact product that `mul` rounds. -/
theorem mul_exact (a b : Double) :
    ((a.m * b.m : Int) : ℚ) * (2 : ℚ) ^ (a.e + b.e) = a.toRat * b.toRat := by
  unfold toRat
  rw [zpow_add₀ (by norm_num : (2 : ℚ) ≠ 0)]
  push_cast
  ring

/-- The exact sum that `add` rounds. -/
theorem add_exact (a b : Double) :
    ((a.m * 2 ^ (a.e - min a.e b.e).toNat + b.m * 2 ^ (b.e - min a.e b.e).toNat : Int) : ℚ)
        * (2 : ℚ) ^ (min a.e b.e)
      = a.toRat + b.toRat := by
  unfold toRat
  have h1 : ((a.e - min a.e b.e).toNat : Int) = a.e - min a.e b.e :=
    Int.toNat_of_nonneg (by have := min_le_left a.e b.e; omega)
  have h2 : ((b.e - min a.e b.e).toNat : Int) = b.e - min a.e b.e :=
    Int.toNat_of_nonneg (by have := min_le_right a.e b.e; omega)
  have e1 : (2 : ℚ) ^ a.e = (2 : ℚ) ^ (a.e - min a.e b.e).toNat * (2 : ℚ) ^ (min a.e b.e) := by
    rw [← zpow_natCast, h1, ← zpow_add₀ (by norm_num : (2 : ℚ) ≠ 0)]
    congr 1; ring
  have e2 : (2 : ℚ) ^ b.e = (2 : ℚ) ^ (b.e - min a.e b.e).toNat * (2 : ℚ) ^ (min a.e b.e) := by
    rw [← zpow_natCast, h2, ← zpow_add₀ (by norm_num : (2 : ℚ) ≠ 0)]
    congr 1; ring
  rw [e1, e2]
  push_cast
  ring

/-- Multiplication by a positive `double` is monotone. -/
theorem mul_mono_left (a b c : Double) (ha : a.wf = true) (hb : b.wf = true)
    (hc : 0 < c.toRat) (h : a.toRat ≤ b.toRat) : (mul a c).toRat ≤ (mul b c).toRat := by
  rcases toRat_le_cases a b ha hb h with h | h
  · rw [h]
  · unfold mul
    apply round_mono
    rw [mul_exact, mul_exact]
    exact mul_lt_mul_of_pos_right h hc

/-- Multiplication of a non-negative `double` is monotone in the other factor. -/
theorem mul_mono_right (c a b : Double) (ha : a.wf = true) (hb : b.wf = true)
    (hc : 0 ≤ c.toRat) (h : a.toRat ≤ b.toRat) : (mul c a).toRat ≤ (mul c b).toRat := by
  rcases toRat_le_cases a b ha hb h with h | h
  · rw [h]
  · rcases eq_or_lt_of_le hc with h0 | hpos
    · have hm : c.m = 0 := by
        unfold toRat at h0
        have hE : (0 : ℚ) < (2 : ℚ) ^ c.e := zpow_pos (by norm_num) _
        have := (mul_eq_zero.mp h0.symm).resolve_right hE.ne'
        exact_mod_cast this
      simp [mul, hm, round]
    · unfold mul
      apply round_mono
      rw [mul_exact, mul_exact]
      exact mul_lt_mul_of_pos_left h hpos

/-- Addition is monotone in its second argument. -/
theorem add_mono_right (c a b : Double) (ha : a.wf = true) (hb : b.wf = true)
    (h : a.toRat ≤ b.toRat) : (add c a).toRat ≤ (add c b).toRat := by
  rcases toRat_le_cases a b ha hb h with h | h
  · rw [h]
  · unfold add
    apply round_mono
    rw [add_exact, add_exact]
    linarith

theorem toRat_nonneg_iff (d : Double) : 0 ≤ d.toRat ↔ 0 ≤ d.m := by
  unfold toRat
  have hE : (0 : ℚ) < (2 : ℚ) ^ d.e := zpow_pos (by norm_num) _
  constructor
  · intro h
    have : (0 : ℚ) ≤ (d.m : ℚ) := nonneg_of_mul_nonneg_left h hE
    exact_mod_cast this
  · intro h
    have : (0 : ℚ) ≤ (d.m : ℚ) := by exact_mod_cast h
    exact mul_nonneg this hE.le

/-- The conversion to an integer of a non-negative `double` is the floor of its value. -/
theorem trunc_of_nonneg (d : Double) (h : 0 ≤ d.toRat) : d.trunc = ⌊d.toRat⌋ := by
  have hm : 0 ≤ d.m := (toRat_nonneg_iff d).mp h
  unfold trunc toRat
  by_cases he : 0 ≤ d.e
  · simp only [he, if_true]
    have e1 : (d.m : ℚ) * (2 : ℚ) ^ d.e = ((d.m * 2 ^ d.e.toNat : Int) : ℚ) := by
      push_cast
      rw [← zpow_natCast, Int.toNat_of_nonneg he]
    rw [e1, Int.floor_intCast]
  · simp only [he, if_false]
    have hk : ((-d.e).toNat : Int) = -d.e := Int.toNat_of_nonneg (by omega)
    have e1 : (d.m : ℚ) * (2 : ℚ) ^ d.e = (d.m : ℚ) / ((2 ^ (-d.e).toNat : Nat) : ℚ) := by
      have hz : (2 : ℚ) ^ d.e = ((2 : ℚ) ^ (-d.e).toNat)⁻¹ := by
        rw [← zpow_natCast, hk, ← zpow_neg, neg_neg]
      rw [hz, div_eq_mul_inv]
      push_cast
      rfl
    rw [e1, Rat.floor_intCast_div_natCast]
    rcases eq_or_lt_of_le hm with h0 | hpos
    · rw [← h0]; simp
    · rw [Int.sign_eq_one_of_pos hpos, one_mul]
      have hn : (d.m.natAbs : Int) = d.m := Int.natAbs_of_nonneg hm
      rw [Int.natCast_div, hn]

theorem trunc_of_neg (d : Double) (h : d.toRat < 0) : d.trunc ≤ 0 := by
  have hm : d.m < 0 := by
    by_contra hc
    have := (toRat_nonneg_iff d).mpr (not_lt.mp hc)
    linarith
  unfold trunc
  split_ifs with he
  · exact mul_nonpos_of_nonpos_of_nonneg hm.le (by positivity)
  · rw [Int.sign_eq_neg_one_of_neg hm]
    have : (0 : Int) ≤ ((d.m.natAbs / 2 ^ (-d.e).toNat : Nat) : Int) := Int.natCast_nonneg _
    omega

theorem toUInt64_eq_some (d : Double) (x : Nat) (h : d.toUInt64 = some x) :
    0 ≤ d.trunc ∧ d.trunc < 2 ^ 64 ∧ (x : Int) = d.trunc := by
  unfold toUInt64 at h
  split_ifs at h with hc
  have hx : d.trunc.toNat = x := Option.some.inj h
  refine ⟨hc.1, hc.2, ?_⟩
  rw [← hx, Int.toNat_of_nonneg hc.1]

/-- The conversion to an unsigned integer is monotone where it is defined. -/
theorem toUInt64_mono (a b : Double) (x y : Nat) (ha : a.toUInt64 = some x)
    (hb : b.toUInt64 = some y) (h : a.toRat ≤ b.toRat) : x ≤ y := by
  obtain ⟨ha0, _, hax⟩ := toUInt64_eq_some a x ha
  obtain ⟨hb0, _, hby⟩ := toUInt64_eq_some b y hb
  rcases lt_or_le a.toRat 0 with hneg | hpos
  · have := trunc_of_neg a hneg
    omega
  · have h1 := trunc_of_nonneg a hpos
    have h2 := trunc_of_nonneg b (le_trans hpos h)
    have := Int.floor_le_floor h
    omega

/-- The integer part of a `double` is the value of a `double`. -/
theorem Repr53_trunc (d : Double) (h : d.wf = true) : Repr53 (d.trunc : ℚ) := by
  have hlt := wf_natAbs_lt d h
  unfold trunc
  by_cases he : 0 ≤ d.e
  · simp only [he, if_true]
    refine ⟨d.m, d.e, hlt, ?_⟩
    push_cast
    rw [← zpow_natCast, Int.toNat_of_nonneg he]
  · simp only [he, if_false]
    refine ⟨Int.sign d.m * ((d.m.natAbs / 2 ^ (-d.e).toNat : Nat) : Int), 0, ?_, by simp⟩
    rw [Int.natAbs_mul, Int.natAbs_ofNat]
    have h1 : d.m.natAbs / 2 ^ (-d.e).toNat ≤ d.m.natAbs := Nat.div_le_self _ _
    have h2 : (Int.sign d.m).natAbs ≤ 1 := by
      rw [Int.natAbs_sign]; split_ifs <;> omega
    calc (Int.sign d.m).natAbs * (d.m.natAbs / 2 ^ (-d.e).toNat)
        ≤ 1 * d.m.natAbs := Nat.mul_le_mul h2 h1
      _ < 2 ^ 53 := by omega

/-- Converting an unsigned integer that a `double` can hold is exact. -/
theorem toRat_ofNat (n : Nat) (h : Repr53 (n : ℚ)) : (ofNat n).toRat = (n : ℚ) := by
  unfold ofNat
  have e : (((n : Int) : ℚ)) * (2 : ℚ) ^ (0 : Int) = (n : ℚ) := by simp
  rw [round_exact _ _ (by rw [e]; exact h), e]

/-- A `double` converted to an unsigned integer and back is its integer part. -/
theorem toRat_ofNat_toUInt64 (d : Double) (h : d.wf = true) (x : Nat)
    (hx : d.toUInt64 = some x) : (ofNat x).toRat = (d.trunc : ℚ) := by
  obtain ⟨_, _, hxt⟩ := toUInt64_eq_some d x hx
  have hq : (x : ℚ) = (d.trunc : ℚ) := by exact_mod_cast hxt
  rw [toRat_ofNat x (by rw [hq]; exact Repr53_trunc d h), hq]

theorem trunc_ofNat (n : Nat) (h : Repr53 (n : ℚ)) : (ofNat n).trunc = (n : Int) := by
  have hv := toRat_ofNat n h
  rw [trunc_of_nonneg _ (by rw [hv]; exact Nat.cast_nonneg n), hv]
  exact Int.floor_natCast n

/-- The literal `0.8` is the `double` nearest to 4/5: it is within half a unit in the last
place (`2^-54`) of it. -/
theorem lit_0_8_nearest : lit_0_8.wf = true ∧ |lit_0_8.toRat - 4 / 5| < 1 / 2 ^ 54 := by
  refine ⟨by decide, ?_⟩
  simp only [toRat, lit_0_8]
  rw [abs_lt]
  constructor <;> norm_num

/-- The literal `0.000001` is the `double` nearest to 1/1000000: it is within half a unit in
the last place (`2^-73`) of it. -/
theorem lit_0_000001_nearest :
    lit_0_000001.wf = true ∧ |lit_0_000001.toRat - 1 / 1000000| < 1 / 2 ^ 73 := by
  refine ⟨by decide, ?_⟩
  simp only [toRat, lit_0_000001]
  rw [abs_lt]
  constructor <;> norm_num

end Double

namespace SpyServer

/-! ### Chunking invariance -/

theorem parse_iter_progress (fmt : FrameFormat) (hfmt : 0 < fmt.header_size) (p : Parser)
    (hp : p.wf fmt = true) (x : Byte) (xs : List Byte) :
    (parse_iter fmt p (x :: xs)).2.1.length < (x :: xs).length ∧
      (parse_iter fmt p (x :: xs)).1.wf fmt = true := by
  unfold Parser.wf at hp
  unfold parse_iter
  cases hph : p.parser_phase with
  | AwaitingHeader =>
    rw [hph] at hp
    simp only [decide_eq_true_eq] at hp
    simp only [parse_header]
    by_cases hc : p.parser_position
        + min (fmt.header_size - p.parser_position) (x :: xs).length = fmt.header_size
    · simp only [hc, if_true]
      have hlen : (List.drop (min (fmt.header_size - p.parser_position) (x :: xs).length)
          (x :: xs)).length < (x :: xs).length := by
        rw [List.length_drop]; simp only [List.length_cons] at hc ⊢; omega
      split_ifs with h1 h2
      · exact ⟨hlen, by simp only [Parser.wf, decide_eq_true_eq]; omega⟩
      · exact ⟨hlen, by simp only [Parser.wf, decide_eq_true_eq]; omega⟩
      · exact ⟨hlen, by simp only [Parser.wf, decide_eq_true_eq]; omega⟩
    · simp only [hc, if_false, hph]
      refine ⟨?_, ?_⟩
      · rw [List.length_drop]; simp only [List.length_cons] at hc ⊢; omega
      · simp only [Parser.wf, hph, decide_eq_true_eq]; simp only [List.length_cons] at hc ⊢; omega
  | AwaitingBody n =>
    rw [hph] at hp
    simp only [decide_eq_true_eq] at hp
    simp only [parse_body]
    by_cases hc : p.parser_position + min (n - p.parser_position) (x :: xs).length = n
    · simp only [hc, if_true]
      refine ⟨?_, ?_⟩
      · rw [List.length_drop]; simp only [List.length_cons] at hc ⊢; omega
      · simp only [Parser.wf, decide_eq_true_eq]; exact hfmt
    · simp only [hc, if_false, hph]
      refine ⟨?_, ?_⟩
      · rw [List.length_drop]; simp only [List.length_cons] at hc ⊢; omega
      · simp only [Parser.wf, hph, decide_eq_true_eq]; simp only [List.length_cons] at hc ⊢; omega

theorem parse_loop_faulted (fmt : FrameFormat) (fuel : Nat) (p : Parser) (buffer : List Byte)
    (hf : p.faulted = true) : parse_loop fmt fuel p buffer = (p, []) := by
  cases fuel with
  | zero => rfl
  | succ n => simp [parse_loop, hf]

theorem parse_loop_nil (fmt : FrameFormat) (fuel : Nat) (p : Parser) :
    parse_loop fmt fuel p [] = (p, []) := by
  cases fuel with
  | zero => rfl
  | succ n => simp [parse_loop]

theorem parse_loop_fuel (fmt : FrameFormat) (hfmt : 0 < fmt.header_size) :
    ∀ (fuel₁ fuel₂ : Nat) (p : Parser) (buffer : List Byte), p.wf fmt = true →
      buffer.length ≤ fuel₁ → buffer.length ≤ fuel₂ →
      parse_loop fmt fuel₁ p buffer = parse_loop fmt fuel₂ p buffer := by
  intro fuel₁
  induction fuel₁ with
  | zero =>
    intro fuel₂ p buffer _ h1 _
    have : buffer = [] := List.eq_nil_of_length_eq_zero (Nat.le_zero.mp h1)
    subst this
    rw [parse_loop_nil, parse_loop_nil]
  | succ n ih =>
    intro fuel₂ p buffer hp h1 h2
    cases buffer with
    | nil => rw [parse_loop_nil, parse_loop_nil]
    | cons x xs =>
      cases fuel₂ with
      | zero => simp at h2
      | succ m =>
        have hprog := parse_iter_progress fmt hfmt p hp x xs
        simp only [parse_loop]
        split_ifs with hcond
        · rfl
        · simp only [List.length_cons] at h1 h2 hprog
          rw [ih m _ _ hprog.2 (by omega) (by omega)]

theorem parse_loop_wf (fmt : FrameFormat) (hfmt : 0 < fmt.header_size) :
    ∀ (fuel : Nat) (p : Parser) (buffer : List Byte), p.wf fmt = true →
      (parse_loop fmt fuel p buffer).1.wf fmt = true := by
  intro fuel
  induction fuel with
  | zero => intro p buffer hp; exact hp
  | succ n ih =>
    intro p buffer hp
    cases buffer with
    | nil => rw [parse_loop_nil]; exact hp
    | cons x xs =>
      simp only [parse_loop]
      split_ifs with hcond
      · exact hp
      · exact ih _ _ (parse_iter_progress fmt hfmt p hp x xs).2

theorem parse_message_wf (fmt : FrameFormat) (hfmt : 0 < fmt.header_size) (p : Parser)
    (buffer : List Byte) (hp : p.wf fmt = true) : (parse_message fmt p buffer).1.wf fmt = true :=
  parse_loop_wf fmt hfmt _ p buffer hp

/-- The first byte of a read either completes the unit being assembled, and the iteration stops
right after it, or it does not, and the iteration continues into the bytes that follow exactly
as a fresh iteration from the state after that byte. -/
theorem parse_iter_cons (fmt : FrameFormat) (p : Parser) (hp : p.wf fmt = true)
    (hnf : p.faulted = false) (x y : Byte) (ys : List Byte) :
    parse_iter fmt p (x :: y :: ys) =
        ((parse_iter fmt p [x]).1, y :: ys, (parse_iter fmt p [x]).2.2) ∨
      ((parse_iter fmt p [x]).1.faulted = false ∧ (parse_iter fmt p [x]).2.2 = [] ∧
        parse_iter fmt p (x :: y :: ys) = parse_iter fmt (parse_iter fmt p [x]).1 (y :: ys)) := by
  unfold Parser.wf at hp
  cases hph : p.parser_phase with
  | AwaitingHeader =>
    rw [hph] at hp
    simp only [decide_eq_true_eq] at hp
    by_cases hc : p.parser_position + 1 = fmt.header_size
    · left
      have e1 : min (fmt.header_size - p.parser_position) (x :: y :: ys).length = 1 := by
        simp only [List.length_cons]; omega
      have e2 : min (fmt.header_size - p.parser_position) [x].length = 1 := by
        simp only [List.length_cons, List.length_nil]; omega
      simp only [parse_iter, hph, parse_header, e1, e2, hc, if_true, List.take_succ_cons,
        List.take_zero, List.drop_succ_cons, List.drop_zero]
      split_ifs <;> rfl
    · right
      have e2 : min (fmt.header_size - p.parser_position) [x].length = 1 := by
        simp only [List.length_cons, List.length_nil]; omega
      have e1 : min (fmt.header_size - p.parser_position) (x :: y :: ys).length
          = min (fmt.header_size - (p.parser_position + 1)) (y :: ys).length + 1 := by
        simp only [List.length_cons]; omega
      have e3 : p.parser_position
            + (min (fmt.header_size - (p.parser_position + 1)) (y :: ys).length + 1)
          = p.parser_position + 1
            + min (fmt.header_size - (p.parser_position + 1)) (y :: ys).length := by omega
      simp only [parse_iter, hph, parse_header, e1, e2, e3, hc, if_false, List.take_succ_cons,
        List.take_zero, List.drop_succ_cons, List.drop_zero, List.append_assoc,
        List.singleton_append, true_and]
      refine ⟨hnf, ?_⟩
      split_ifs <;> rfl
  | AwaitingBody n =>
    rw [hph] at hp
    simp only [decide_eq_true_eq] at hp
    by_cases hc : p.parser_position + 1 = n
    · left
      have e1 : min (n - p.parser_position) (x :: y :: ys).length = 1 := by
        simp only [List.length_cons]; omega
      have e2 : min (n - p.parser_position) [x].length = 1 := by
        simp only [List.length_cons, List.length_nil]; omega
      simp only [parse_iter, hph, parse_body, e1, e2, hc, if_true, List.take_succ_cons,
        List.take_zero, List.drop_succ_cons, List.drop_zero]
    · right
      have e2 : min (n - p.parser_position) [x].length = 1 := by
        simp only [List.length_cons, List.length_nil]; omega
      have e1 : min (n - p.parser_position) (x :: y :: ys).length
          = min (n - (p.parser_position + 1)) (y :: ys).length + 1 := by
        simp only [List.length_cons]; omega
      have e3 : p.parser_position + (min (n - (p.parser_position + 1)) (y :: ys).length + 1)
          = p.parser_position + 1 + min (n - (p.parser_position + 1)) (y :: ys).length := by
        omega
      simp only [parse_iter, hph, parse_body, e1, e2, e3, hc, if_false, List.take_succ_cons,
        List.take_zero, List.drop_succ_cons, List.drop_zero, List.append_assoc,
        List.singleton_append, true_and]
      refine ⟨hnf, ?_⟩
      split_ifs <;> rfl

theorem parse_message_cons (fmt : FrameFormat) (hfmt : 0 < fmt.header_size) (p : Parser)
    (hp : p.wf fmt = true) (x : Byte) (xs : List Byte) :
    parse_message fmt p (x :: xs) =
      ((parse_message fmt (parse_message fmt p [x]).1 xs).1,
        (parse_message fmt p [x]).2 ++ (parse_message fmt (parse_message fmt p [x]).1 xs).2) := by
  unfold parse_message
  cases hf : p.faulted with
  | true =>
    simp only [parse_loop_faulted fmt _ p _ hf, List.nil_append]
  | false =>
    cases xs with
    | nil =>
      simp only [List.length_nil, parse_loop, List.append_nil]
    | cons y ys =>
      have h1 : parse_loop fmt [x].length p [x]
          = ((parse_iter fmt p [x]).1, (parse_iter fmt p [x]).2.2) := by
        have hl := (parse_iter_progress fmt hfmt p hp x []).1
        have hnil : (parse_iter fmt p [x]).2.1 = [] := by
          apply List.eq_nil_of_length_eq_zero
          simp only [List.length_cons, List.length_nil] at hl
          omega
        simp only [List.length_cons, List.length_nil, parse_loop, hf, List.isEmpty_cons,
          Bool.or_self, Bool.false_eq_true, if_false, List.append_nil]
      rw [h1]
      have hstep : parse_loop fmt (x :: y :: ys).length p (x :: y :: ys)
          = ((parse_loop fmt (y :: ys).length (parse_iter fmt p (x :: y :: ys)).1
                (parse_iter fmt p (x :: y :: ys)).2.1).1,
              (parse_iter fmt p (x :: y :: ys)).2.2
                ++ (parse_loop fmt (y :: ys).length (parse_iter fmt p (x :: y :: ys)).1
                (parse_iter fmt p (x :: y :: ys)).2.1).2) := by
        simp only [List.length_cons, parse_loop, hf, List.isEmpty_cons, Bool.or_self,
          Bool.false_eq_true, if_false]
      rw [hstep]
      rcases parse_iter_cons fmt p hp hf x y ys with h | ⟨hnf, hnil, h⟩
      · rw [h]
      · have hq := (parse_iter_progress fmt hfmt p hp x []).2
        have hprog := parse_iter_progress fmt hfmt _ hq y ys
        rw [h, hnil]
        have hunf : parse_loop fmt (y :: ys).length (parse_iter fmt p [x]).1 (y :: ys)
            = ((parse_loop fmt ys.length
                  (parse_iter fmt (parse_iter fmt p [x]).1 (y :: ys)).1
                  (parse_iter fmt (parse_iter fmt p [x]).1 (y :: ys)).2.1).1,
                (parse_iter fmt (parse_iter fmt p [x]).1 (y :: ys)).2.2
                  ++ (parse_loop fmt ys.length
                  (parse_iter fmt (parse_iter fmt p [x]).1 (y :: ys)).1
                  (parse_iter fmt (parse_iter fmt p [x]).1 (y :: ys)).2.1).2) := by
          simp only [List.length_cons, parse_loop, hnf, List.isEmpty_cons, Bool.or_self,
            Bool.false_eq_true, if_false]
        rw [hunf]
        simp only [List.length_cons] at hprog
        rw [parse_loop_fuel fmt hfmt (y :: ys).length ys.length _ _ hprog.2
          (by simp only [List.length_cons]; omega) (by omega)]
        simp only [List.nil_append]

/-- Feeding `a ++ b` in one call is feeding `a` and then `b`. -/
theorem parse_message_append (fmt : FrameFormat) (hfmt : 0 < fmt.header_size) :
    ∀ (a b : List Byte) (p : Parser), p.wf fmt = true →
      parse_message fmt p (a ++ b) =
        ((parse_message fmt (parse_message fmt p a).1 b).1,
          (parse_message fmt p a).2 ++ (parse_message fmt (parse_message fmt p a).1 b).2) := by
  intro a
  induction a with
  | nil =>
    intro b p _
    simp only [List.nil_append, parse_message, List.length_nil, parse_loop]
  | cons x xs ih =>
    intro b p hp
    have hq := parse_message_wf fmt hfmt p [x] hp
    rw [List.cons_append, parse_message_cons fmt hfmt p hp x (xs ++ b), ih b _ hq,
      parse_message_cons fmt hfmt p hp x xs]
    simp only [List.append_assoc]

/-- C1: chunking invariance of the frame decoder. For every wire format with a non-empty
header, every decoder state reachable between reads and every list of reads (whatever the byte
sequence and wherever it is split), feeding the reads one by one to `parse_message`, carrying
the decoder state across calls, yields the same frames in the same order and the same final
decoder state as feeding their concatenation in a single call. -/
theorem parse_message_chunking_invariance (fmt : FrameFormat) (hfmt : 0 < fmt.header_size)
    (p : Parser) (hp : p.wf fmt = true) (chunks : List (List Byte)) :
    feed_chunks fmt p chunks = parse_message fmt p chunks.flatten := by
  induction chunks generalizing p with
  | nil =>
    simp only [feed_chunks, List.flatten_nil, parse_message, List.length_nil, parse_loop]
  | cons c cs ih =>
    rw [List.flatten_cons, parse_message_append fmt hfmt c cs.flatten p hp]
    simp only [feed_chunks]
    rw [ih _ (parse_message_wf fmt hfmt p c hp)]

/-- C1 at a concrete input: two frames (one with a two-byte body, one with an empty body) and
one byte of a third header, split inside the first header and inside the first body. -/
theorem parse_message_chunking_invariance_witness :
    0 < wire_format.header_size ∧ Parser.init.wf wire_format = true ∧
      feed_chunks wire_format Parser.init
          [[1, 0, 0, 0, 2, 0, 0], [0, 3, 0, 0, 0, 4, 0, 0, 0, 2, 0, 0, 0, 9],
            [8, 1, 0, 0, 0, 2, 0, 0, 0, 3, 0, 0, 0, 5, 0, 0, 0, 0, 0, 0, 0, 7]]
        = parse_message wire_format Parser.init
            [1, 0, 0, 0, 2, 0, 0, 0, 3, 0, 0, 0, 4, 0, 0, 0, 2, 0, 0, 0, 9,
              8, 1, 0, 0, 0, 2, 0, 0, 0, 3, 0, 0, 0, 5, 0, 0, 0, 0, 0, 0, 0, 7] :=
  ⟨by decide, by decide,
    parse_message_chunking_invariance wire_format (by decide) Parser.init (by decide)
      [[1, 0, 0, 0, 2, 0, 0], [0, 3, 0, 0, 0, 4, 0, 0, 0, 2, 0, 0, 0, 9],
        [8, 1, 0, 0, 0, 2, 0, 0, 0, 3, 0, 0, 0, 5, 0, 0, 0, 0, 0, 0, 0, 7]]⟩

/-! ### Ring-buffer overflow -/

theorem RingBuffer.push_all_spec {α : Type} :
    ∀ (xs : List α) (rb : RingBuffer α), 0 < rb.capacity → rb.items.length ≤ rb.capacity →
      (rb.push_all xs).capacity = rb.capacity ∧
      (rb.push_all xs).items
        = (rb.items ++ xs).drop (rb.items.length + xs.length - rb.capacity) ∧
      (rb.push_all xs).dropped = rb.dropped + (rb.items.length + xs.length - rb.capacity) := by
  intro xs
  induction xs with
  | nil =>
    intro rb _ hle
    have h0 : rb.items.length - rb.capacity = 0 := by omega
    simp [RingBuffer.push_all, h0]
  | cons x xs ih =>
    intro rb hc hle
    have hstep : rb.push_all (x :: xs) = (rb.push x).push_all xs := rfl
    rw [hstep]
    by_cases hlt : rb.items.length < rb.capacity
    · have hp : rb.push x = { rb with items := rb.items ++ [x] } := by
        simp [RingBuffer.push, hlt]
      rw [hp]
      have := ih { rb with items := rb.items ++ [x] } hc (by simp; omega)
      simp only [List.length_append, List.length_cons, List.length_nil, List.append_assoc,
        List.singleton_append] at this ⊢
      have e : rb.items.length + (0 + 1) + xs.length = rb.items.length + (xs.length + 1) := by
        omega
      rw [e] at this
      exact this
    · have hfull : rb.items.length = rb.capacity := by omega
      have hp : rb.push x
          = { rb with items := rb.items.drop 1 ++ [x], dropped := rb.dropped + 1 } := by
        simp [RingBuffer.push, hlt]
      rw [hp]
      have hlen : (rb.items.drop 1 ++ [x]).length = rb.capacity := by
        simp only [List.length_append, List.length_drop, List.length_cons, List.length_nil]
        omega
      have := ih { rb with items := rb.items.drop 1 ++ [x], dropped := rb.dropped + 1 } hc
        (by simp only [hlen]; exact le_refl _)
      simp only [hlen, List.append_assoc, List.singleton_append] at this
      obtain ⟨h1, h2, h3⟩ := this
      refine ⟨h1, ?_, ?_⟩
      · rw [h2, hfull]
        have e1 : rb.capacity + xs.length - rb.capacity = xs.length := by omega
        have e2 : rb.capacity + (x :: xs).length - rb.capacity = xs.length + 1 := by
          simp only [List.length_cons]; omega
        rw [e1, e2]
        cases hi : rb.items with
        | nil => rw [hi] at hfull; simp at hfull; omega
        | cons a t => simp
      · rw [h3, hfull]
        simp only [List.length_cons]
        omega

/-- C3: ring-buffer overflow policy. For every capacity `c > 0` and every list `xs` of `n`
entries pushed into an empty buffer with no pull in between, the buffer then holds exactly
`min n c` entries, they are the newest `min n c` pushed, in their original order (`xs` without
its first `n - c` entries), and the drop counter has grown by exactly `n - c` when `n > c` and
by `0` otherwise; the push is a total function, it cannot block. -/
theorem ring_buffer_overflow_policy {α : Type} (c : Nat) (hc : 0 < c) (dropped : Nat)
    (xs : List α) :
    ((RingBuffer.empty c dropped).push_all xs).items.length = min xs.length c ∧
      ((RingBuffer.empty c dropped).push_all xs).items = xs.drop (xs.length - c) ∧
      ((RingBuffer.empty c dropped).push_all xs).dropped = dropped + (xs.length - c) := by
  obtain ⟨_, h2, h3⟩ := RingBuffer.push_all_spec xs (RingBuffer.empty c dropped) hc
    (by simp [RingBuffer.empty])
  simp only [RingBuffer.empty, List.length_nil, Nat.zero_add, List.nil_append] at h2 h3
  refine ⟨?_, h2, h3⟩
  have h4 := congrArg List.length h2
  rw [List.length_drop] at h4
  unfold RingBuffer.empty
  omega

/-- C3 at the scenario of the spec: capacity 4, six pushes, no pull: the newest four are
retained and the drop counter has grown by two. -/
theorem ring_buffer_overflow_policy_witness :
    0 < 4 ∧ ((RingBuffer.empty 4 0).push_all [10, 11, 12, 13, 14, 15]).items = [12, 13, 14, 15] ∧
      ((RingBuffer.empty 4 0).push_all [10, 11, 12, 13, 14, 15]).dropped = 2 :=
  ⟨by decide, (ring_buffer_overflow_policy 4 (by decide) 0 [10, 11, 12, 13, 14, 15]).2.1,
    (ring_buffer_overflow_policy 4 (by decide) 0 [10, 11, 12, 13, 14, 15]).2.2⟩

/-! ### Sequence-gap accounting -/

theorem Session.step_inv (s : Session) (ev : Event) (h : s.inv) : (s.step ev).inv := by
  unfold Session.inv at h ⊢
  cases ev <;> cases hs : s.state <;>
    simp_all [Session.step, Session.invalidate, set_center_freq, set_gain, set_sample_rate,
      set_bandwidth, Session.negotiated]

theorem Session.foldl_inv (events : List Event) :
    ∀ s : Session, s.inv → (events.foldl Session.step s).inv := by
  induction events with
  | nil => intro s h; exact h
  | cons ev evs ih => intro s h; exact ih _ (Session.step_inv s ev h)

/-- In every session reached by a run of events, setter calls included, the guard of the
commands is the test of the spec, "only valid in states Ready or Streaming". -/
theorem Session.run_negotiated (events : List Event) :
    (Session.run events).negotiated = true ↔
      ((Session.run events).state = .Ready ∨ (Session.run events).state = .Streaming) := by
  have hinv : (Session.run events).inv :=
    Session.foldl_inv events _ (by simp [Session.inv, Session.init])
  unfold Session.inv at hinv
  unfold Session.negotiated
  constructor
  · intro h
    simp only [Bool.and_eq_true, Bool.or_eq_true, decide_eq_true_eq] at h
    exact h.1.1
  · intro h
    have h1 := hinv.1 (Or.inr h)
    have h2 := hinv.2 h
    simp only [Bool.and_eq_true, Bool.or_eq_true, decide_eq_true_eq]
    exact ⟨⟨h, h1⟩, h2⟩

/-- After the handshake of the spec scenario the session is negotiated: `get_gain` reports the
gain of the client-sync message and `set_gain` is accepted, sent and reported back. -/
theorem Session.handshake_ready (info : DeviceInfo) (sync : SyncInfo) (gain : Double) :
    (get_gain (Session.run
        [.connect, .connected, .hello_ack, .device_info info, .client_sync sync])).1
        = .ok sync.current_gain ∧
      (set_gain (Session.run
        [.connect, .connected, .hello_ack, .device_info info, .client_sync sync]) gain).1
        = .ok gain ∧
      (set_gain (Session.run
        [.connect, .connected, .hello_ack, .device_info info, .client_sync sync]) gain).2.sent
        = [Command.hello, Command.set_gain gain] := by
  simp [Session.run, Session.init, Session.step, get_gain, set_gain, Session.negotiated]

end SpyServer

namespace PlutoSDR

namespace plutosdr_source_c

/-! ### Construction -/

/-- C6: unknown construction options are ignored. The constructor is a total function of the
argument dictionary; two dictionaries that agree on the option "uri" give the same initial
state; `uri` is the value of the option, "ip:pluto.local" when it is absent, and every other
field has its default whatever other keys are present: frequency 434000000, samplerate
2500000, bandwidth 2000000, gain_value 50, gain_auto false, `_freq_corr` 0. -/
theorem new_ignores_unknown_options (d₁ d₂ : dict_t)
    (h : d₁.lookup "uri" = d₂.lookup "uri") :
    new d₁ = new d₂ ∧
      (new d₁).uri = (d₁.lookup "uri").getD "ip:pluto.local" ∧
      (new d₁).frequency = 434000000 ∧ (new d₁).samplerate = 2500000 ∧
      (new d₁).bandwidth = 2000000 ∧ (new d₁).gain_value = Double.ofNat 50 ∧
      (new d₁).gain_value.toRat = 50 ∧ (new d₁).gain_auto = false ∧
      (new d₁)._freq_corr = Double.zero ∧ (new d₁)._freq_corr.toRat = 0 := by
  refine ⟨?_, ?_, rfl, rfl, rfl, rfl, ?_, rfl, rfl, ?_⟩
  · simp only [new, dict_t.count, dict_t.get, h]
  · simp only [new, dict_t.count, dict_t.get]
    cases hl : List.lookup "uri" d₁ <;> simp
  · have := Double.toRat_ofNat 50 (Double.Repr53_natCast 50 (by norm_num))
    simpa [new] using this
  · simp [new, Double.zero, Double.toRat]

/-- C6 at a concrete input: two dictionaries with the same "uri" and different other keys. -/
theorem new_ignores_unknown_options_witness :
    List.lookup "uri" [("uri", "ip:192.168.2.1"), ("foo", "bar")]
        = List.lookup "uri" [("buffers", "4"), ("uri", "ip:192.168.2.1"), ("gain", "7")] ∧
      new [("uri", "ip:192.168.2.1"), ("foo", "bar")]
        = new [("buffers", "4"), ("uri", "ip:192.168.2.1"), ("gain", "7")] ∧
      (new [("uri", "ip:192.168.2.1"), ("foo", "bar")]).uri = "ip:192.168.2.1" :=
  ⟨by decide,
    (new_ignores_unknown_options [("uri", "ip:192.168.2.1"), ("foo", "bar")]
      [("buffers", "4"), ("uri", "ip:192.168.2.1"), ("gain", "7")] (by decide)).1,
    by decide⟩

/-! ### Setters and getters -/

/-- The method `set_params` changes the wrapped block only. -/
theorem set_params_fields (s s' : plutosdr_source_c) (h : set_params s = some s') :
    s'.frequency = s.frequency ∧ s'.samplerate = s.samplerate ∧ s'.bandwidth = s.bandwidth ∧
      s'.gain_auto = s.gain_auto ∧ s'.gain_value = s.gain_value ∧
      s'._freq_corr = s._freq_corr ∧
      corrected_freq s.frequency s._freq_corr = some s'._src.frequency := by
  unfold set_params at h
  cases hf : corrected_freq s.frequency s._freq_corr with
  | none => rw [hf] at h; cases h
  | some f =>
    rw [hf] at h
    have h' := Option.some.inj h
    subst h'
    exact ⟨rfl, rfl, rfl, rfl, rfl, rfl, rfl⟩

/-- The method `set_params` is defined when the corrected frequency fits the destination
type. -/
theorem set_params_defined (s : plutosdr_source_c) (f : Nat)
    (h : corrected_freq s.frequency s._freq_corr = some f) :
    ∃ s', set_params s = some s' := by
  unfold set_params
  rw [h]
  exact ⟨_, rfl⟩

/-- C5, as amended: `set_gain(v)` and `set_center_freq(v)` return exactly `v`;
`set_sample_rate(v)` returns the stored `samplerate`, the integer part of `v`;
`set_bandwidth(v)` returns the stored `bandwidth`, the integer part of `v` for `v` other than
zero and the integer part of the `double` product `0.8 * samplerate` for `v` zero. Each call is
defined when the conversions to the unsigned types are: `f` and `f'` are the corrected
frequencies that `set_params` forwards, `n` is `v` as an unsigned integer. -/
theorem setters_return_value (s : plutosdr_source_c) (v : Double) (f : Nat)
    (hf : corrected_freq s.frequency s._freq_corr = some f) :
    (∃ s', set_gain s v = some (s', v)) ∧
      (∀ n f' : Nat, v.toUInt64 = some n → corrected_freq n s._freq_corr = some f' →
        ∃ s', set_center_freq s v = some (s', v)) ∧
      (∀ n : Nat, v.wf = true → v.toUInt64 = some n →
        ∃ s' r, set_sample_rate s v = some (s', r) ∧ r.toRat = (v.trunc : ℚ) ∧
          (s'.samplerate : Int) = v.trunc) ∧
      (∀ n : Nat, v.wf = true → v.m ≠ 0 → v.toUInt64 = some n →
        ∃ s' r, set_bandwidth s v = some (s', r) ∧ r.toRat = (v.trunc : ℚ) ∧
          (s'.bandwidth : Int) = v.trunc) ∧
      (∀ b : Nat, v.m = 0 →
        (Double.mul Double.lit_0_8 (Double.ofNat s.samplerate)).toUInt64 = some b →
        ∃ s', set_bandwidth s v = some (s', Double.ofNat b) ∧ s'.bandwidth = b) := by
  refine ⟨?_, ?_, ?_, ?_, ?_⟩
  · obtain ⟨s', hs'⟩ := set_params_defined { s with gain_value := v } f hf
    exact ⟨s', by simp only [set_gain, hs']⟩
  · intro n f' hn hf'
    obtain ⟨s', hs'⟩ := set_params_defined { s with frequency := n } f' hf'
    exact ⟨s', by simp only [set_center_freq, hn, hs']⟩
  · intro n hv hn
    obtain ⟨_, _, hnt⟩ := Double.toUInt64_eq_some v n hn
    obtain ⟨s', hs'⟩ := set_params_defined { s with samplerate := n } f hf
    have hfld := (set_params_fields _ s' hs').2.1
    refine ⟨s', Double.ofNat s'.samplerate, by simp only [set_sample_rate, hn, hs'], ?_, ?_⟩
    · rw [hfld]; exact Double.toRat_ofNat_toUInt64 v hv n hn
    · rw [hfld]; exact hnt
  · intro n hv hm hn
    obtain ⟨_, _, hnt⟩ := Double.toUInt64_eq_some v n hn
    obtain ⟨s', hs'⟩ := set_params_defined { s with bandwidth := n } f hf
    have hfld := (set_params_fields _ s' hs').2.2.1
    refine ⟨s', Double.ofNat s'.bandwidth, by simp only [set_bandwidth, hm, if_false, hn, hs'],
      ?_, ?_⟩
    · rw [hfld]; exact Double.toRat_ofNat_toUInt64 v hv n hn
    · rw [hfld]; exact hnt
  · intro b hm hb
    obtain ⟨s', hs'⟩ := set_params_defined { s with bandwidth := b } f hf
    have hfld := (set_params_fields _ s' hs').2.2.1
    refine ⟨s', ?_, hfld⟩
    simp only [set_bandwidth, hm, if_true, hb, hs', hfld]

/-- C5, as amended, at a concrete input: the freshly constructed source and the value
2500000.5. -/
theorem setters_return_value_witness :
    corrected_freq (new []).frequency (new [])._freq_corr = some 434000000 ∧
      (∃ s', set_gain (new []) ⟨5368710193741824, -31⟩ = some (s', ⟨5368710193741824, -31⟩)) ∧
      (∃ s', set_center_freq (new []) ⟨5368710193741824, -31⟩
        = some (s', ⟨5368710193741824, -31⟩)) ∧
      (∃ s' r, set_sample_rate (new []) ⟨5368710193741824, -31⟩ = some (s', r) ∧
        r.toRat = ((⟨5368710193741824, -31⟩ : Double).trunc : ℚ) ∧
        (s'.samplerate : Int) = (⟨5368710193741824, -31⟩ : Double).trunc) :=
  ⟨by decide,
    (setters_return_value (new []) ⟨5368710193741824, -31⟩ 434000000 (by decide)).1,
    (setters_return_value (new []) ⟨5368710193741824, -31⟩ 434000000 (by decide)).2.1
      2500000 2500000 (by decide) (by decide),
    (setters_return_value (new []) ⟨5368710193741824, -31⟩ 434000000 (by decide)).2.2.1
      2500000 (by decide) (by decide)⟩

/-- C5 as stated fails: on the freshly constructed source `set_sample_rate(2500000.5)` returns
2500000, not 2500000.5, and `set_bandwidth(0)` returns 2000000, not 0. -/
theorem setters_return_value_counterexample :
    (set_sample_rate (new []) ⟨5368710193741824, -31⟩).map Prod.snd
        = some (Double.ofNat 2500000) ∧
      Double.ofNat 2500000 ≠ ⟨5368710193741824, -31⟩ ∧
      (set_bandwidth (new []) Double.zero).map Prod.snd = some (Double.ofNat 2000000) ∧
      Double.ofNat 2000000 ≠ Double.zero := by
  decide

/-- C8, as amended: for sample_rate, freq_corr, gain, gain_mode, bandwidth and antenna the
getter called right after the setter returns the value the setter returned; for center_freq
the getter returns the stored `frequency`, the integer part of the value the setter
returned. -/
theorem getter_after_setter (s s' : plutosdr_source_c) (v r : Double) (b rb : Bool)
    (antenna : String) :
    (set_sample_rate s v = some (s', r) → get_sample_rate s' = r) ∧
      (set_freq_corr s v = some (s', r) → get_freq_corr s' = r) ∧
      (set_gain s v = some (s', r) → get_gain s' = r) ∧
      (set_gain_mode s b = some (s', rb) → get_gain_mode s' = rb) ∧
      (set_bandwidth s v = some (s', r) → get_bandwidth s' = r) ∧
      get_antenna (set_antenna s antenna).1 = (set_antenna s antenna).2 ∧
      (v.wf = true → set_center_freq s v = some (s', r) →
        (get_center_freq s').toRat = (r.trunc : ℚ)) := by
  refine ⟨?_, ?_, ?_, ?_, ?_, rfl, ?_⟩
  · intro h
    cases hc : Double.toUInt64 v with
    | none => simp [set_sample_rate, hc] at h
    | some n =>
      cases hp : set_params { s with samplerate := n } with
      | none => simp [set_sample_rate, hc, hp] at h
      | some t =>
        simp only [set_sample_rate, hc, hp, Option.some.injEq, Prod.mk.injEq] at h
        rw [← h.1, ← h.2]; rfl
  · intro h
    cases hp : set_params { s with _freq_corr := v } with
    | none => simp [set_freq_corr, hp] at h
    | some t =>
      simp only [set_freq_corr, hp, Option.some.injEq, Prod.mk.injEq] at h
      rw [← h.1, ← h.2]
      exact (set_params_fields _ t hp).2.2.2.2.2.1
  · intro h
    cases hp : set_params { s with gain_value := v } with
    | none => simp [set_gain, hp] at h
    | some t =>
      simp only [set_gain, hp, Option.some.injEq, Prod.mk.injEq] at h
      rw [← h.1, ← h.2]
      exact (set_params_fields _ t hp).2.2.2.2.1
  · intro h
    cases hp : set_params { s with gain_auto := b } with
    | none => simp [set_gain_mode, hp] at h
    | some t =>
      simp only [set_gain_mode, hp, Option.some.injEq, Prod.mk.injEq] at h
      rw [← h.1, ← h.2]
      exact (set_params_fields _ t hp).2.2.2.1
  · intro h
    cases hc : Double.toUInt64
        (if v.m = 0 then Double.mul Double.lit_0_8 (Double.ofNat s.samplerate) else v) with
    | none => simp [set_bandwidth, hc] at h
    | some n =>
      cases hp : set_params { s with bandwidth := n } with
      | none => simp [set_bandwidth, hc, hp] at h
      | some t =>
        simp only [set_bandwidth, hc, hp, Option.some.injEq, Prod.mk.injEq] at h
        rw [← h.1, ← h.2]; rfl
  · intro hv h
    cases hc : Double.toUInt64 v with
    | none => simp [set_center_freq, hc] at h
    | some n =>
      cases hp : set_params { s with frequency := n } with
      | none => simp [set_center_freq, hc, hp] at h
      | some t =>
        simp only [set_center_freq, hc, hp, Option.some.injEq, Prod.mk.injEq] at h
        rw [← h.1, ← h.2]
        unfold get_center_freq
        rw [(set_params_fields _ t hp).1]
        exact Double.toRat_ofNat_toUInt64 v hv n hc

/-- C8, as amended, at a concrete input: the freshly constructed source and the value
2500000.5. -/
theorem getter_after_setter_witness :
    ∃ s', set_sample_rate (new []) ⟨5368710193741824, -31⟩ = some (s', Double.ofNat 2500000) ∧
      get_sample_rate s' = Double.ofNat 2500000 :=
  ⟨(set_params { new [] with samplerate := 2500000 }).getD (new []), by decide,
    (getter_after_setter (new [])
      ((set_params { new [] with samplerate := 2500000 }).getD (new []))
      ⟨5368710193741824, -31⟩ (Double.ofNat 2500000) false false "").1 (by decide)⟩

/-- C8 as stated fails for center_freq: on the freshly constructed source
`set_center_freq(433920000.5)` returns 433920000.5 and `get_center_freq` then returns
433920000. -/
theorem getter_after_setter_counterexample :
    (set_center_freq (new []) ⟨7279969575108608, -24⟩).map Prod.snd
        = some ⟨7279969575108608, -24⟩ ∧
      (set_center_freq (new []) ⟨7279969575108608, -24⟩).map (fun r => get_center_freq r.1)
        = some (Double.ofNat 433920000) ∧
      Double.ofNat 433920000 ≠ ⟨7279969575108608, -24⟩ := by
  decide

/-! ### Frequency correction in `set_params` -/

theorem toUInt64_of_toRat (d : Double) (n : Nat) (h : d.toRat = (n : ℚ)) (hn : n < 2 ^ 64) :
    d.toUInt64 = some n := by
  have ht : d.trunc = (n : Int) := by
    rw [Double.trunc_of_nonneg d (by rw [h]; exact Nat.cast_nonneg n), h]
    exact Int.floor_natCast n
  unfold Double.toUInt64
  rw [ht]
  have h1 : (0 : Int) ≤ (n : Int) ∧ (n : Int) < 2 ^ 64 := ⟨Int.natCast_nonneg n, by exact_mod_cast hn⟩
  simp only [h1, and_self, if_true, Int.toNat_ofNat]

theorem toRat_ofNat_nonneg (n : Nat) : 0 ≤ (Double.ofNat n).toRat := by
  rw [Double.toRat_nonneg_iff]
  unfold Double.ofNat Double.round
  split_ifs with h0
  · exact le_refl _
  · exact mul_nonneg (Int.sign_nonneg.mpr (Int.natCast_nonneg n)) (Int.natCast_nonneg _)

/-- C9, as amended: the frequency that `set_params` forwards to the wrapped block is the
integer part of the value that the `double` expression
`(double)frequency * (1.0 + _freq_corr * 0.000001)` rounds to; with a correction of 0 the call
is defined and forwards the stored frequency exactly, for every stored frequency that a
`double` can hold; for a fixed stored frequency the forwarded frequency is monotonically
non-decreasing in the correction; and every frequency that `set_center_freq` stores is one
that a `double` can hold. -/
theorem set_params_frequency_correction (s₁ s₂ : plutosdr_source_c) :
    (s₁._freq_corr = Double.zero → Double.Repr53 (s₁.frequency : ℚ) → s₁.frequency < 2 ^ 64 →
        ∃ s₁', set_params s₁ = some s₁' ∧ s₁'._src.frequency = s₁.frequency) ∧
      (∀ s₁' s₂', set_params s₁ = some s₁' → set_params s₂ = some s₂' →
        (s₁'._src.frequency : Int)
            = (Double.mul (Double.ofNat s₁.frequency)
                (Double.add Double.one
                  (Double.mul s₁._freq_corr Double.lit_0_000001))).trunc ∧
          (s₁.frequency = s₂.frequency → s₁._freq_corr.wf = true → s₂._freq_corr.wf = true →
            s₁._freq_corr.toRat ≤ s₂._freq_corr.toRat →
            s₁'._src.frequency ≤ s₂'._src.frequency)) ∧
      (∀ (v r : Double) (t : plutosdr_source_c), v.wf = true →
        set_center_freq s₁ v = some (t, r) →
        Double.Repr53 (t.frequency : ℚ) ∧ t.frequency < 2 ^ 64) := by
  refine ⟨?_, ?_, ?_⟩
  · intro hz hr hlt
    have hmul : Double.mul Double.zero Double.lit_0_000001 = Double.zero := by decide
    have hadd : Double.add Double.one Double.zero = Double.one := by decide
    have hone : Double.one.toRat = 1 := by
      simp only [Double.toRat, Double.one]; norm_num
    have hval : (Double.mul (Double.ofNat s₁.frequency) Double.one).toRat
        = (s₁.frequency : ℚ) := by
      unfold Double.mul
      have hx := Double.mul_exact (Double.ofNat s₁.frequency) Double.one
      rw [Double.toRat_ofNat _ hr, hone, mul_one] at hx
      rw [Double.round_exact _ _ (by rw [hx]; exact hr), hx]
    have hc : corrected_freq s₁.frequency s₁._freq_corr = some s₁.frequency := by
      unfold corrected_freq
      rw [hz, hmul, hadd]
      exact toUInt64_of_toRat _ _ hval hlt
    obtain ⟨s₁', hs⟩ := set_params_defined s₁ _ hc
    refine ⟨s₁', hs, ?_⟩
    have := (set_params_fields s₁ s₁' hs).2.2.2.2.2.2
    rw [hc] at this
    exact (Option.some.inj this).symm
  · intro s₁' s₂' h₁ h₂
    have hc₁ := (set_params_fields s₁ s₁' h₁).2.2.2.2.2.2
    have hc₂ := (set_params_fields s₂ s₂' h₂).2.2.2.2.2.2
    refine ⟨(Double.toUInt64_eq_some _ _ hc₁).2.2, ?_⟩
    intro hf hw₁ hw₂ hle
    unfold corrected_freq at hc₁ hc₂
    rw [hf] at hc₁
    have hlit : 0 < Double.lit_0_000001.toRat := by
      simp only [Double.toRat, Double.lit_0_000001]
      exact mul_pos (by norm_num) (zpow_pos (by norm_num) _)
    have e1 := Double.mul_mono_left _ _ Double.lit_0_000001 hw₁ hw₂ hlit hle
    have e2 := Double.add_mono_right Double.one _ _ (Double.mul_wf _ _) (Double.mul_wf _ _) e1
    have e3 := Double.mul_mono_right (Double.ofNat s₂.frequency) _ _ (Double.add_wf _ _)
      (Double.add_wf _ _) (toRat_ofNat_nonneg _) e2
    exact Double.toUInt64_mono _ _ _ _ hc₁ hc₂ e3
  · intro v r t hv h
    cases hc : Double.toUInt64 v with
    | none => simp [set_center_freq, hc] at h
    | some n =>
      cases hp : set_params { s₁ with frequency := n } with
      | none => simp [set_center_freq, hc, hp] at h
      | some u =>
        simp only [set_center_freq, hc, hp, Option.some.injEq, Prod.mk.injEq] at h
        obtain ⟨_, hlt, hnt⟩ := Double.toUInt64_eq_some v n hc
        have hfreq : t.frequency = n := by rw [← h.1]; exact (set_params_fields _ u hp).1
        rw [hfreq]
        refine ⟨?_, by exact_mod_cast (hnt ▸ hlt)⟩
        have hq : (n : ℚ) = (v.trunc : ℚ) := by exact_mod_cast hnt
        rw [hq]
        exact Double.Repr53_trunc v hv

/-- C9, as amended, at a concrete input: the freshly constructed source, stored frequency
434000000, with corrections 0 and 1 ppm. -/
theorem set_params_frequency_correction_witness :
    ∃ s₁' s₂', set_params (new []) = some s₁' ∧
      set_params { new [] with _freq_corr := Double.ofNat 1 } = some s₂' ∧
      s₁'._src.frequency = 434000000 ∧ s₁'._src.frequency ≤ s₂'._src.frequency :=
  ⟨(set_params (new [])).getD (new []),
    (set_params { new [] with _freq_corr := Double.ofNat 1 }).getD (new []),
    by decide, by decide, by decide,
    ((set_params_frequency_correction (new [])
        { new [] with _freq_corr := Double.ofNat 1 }).2.1
      ((set_params (new [])).getD (new []))
      ((set_params { new [] with _freq_corr := Double.ofNat 1 }).getD (new []))
      (by decide) (by decide)).2 (by decide) (by decide) (by decide)
      (by simp only [new, Double.toRat, Double.zero]
          exact le_of_lt (by
            have : (0 : ℚ) < ((Double.ofNat 1).m : ℚ) * (2 : ℚ) ^ (Double.ofNat 1).e :=
              mul_pos (by decide) (zpow_pos (by norm_num) _)
            simpa using this))⟩

/-- C9 as stated fails at the default frequency: with 434000000 stored, `set_freq_corr(1)`
forwards 434000433 to the wrapped block, while 434000000 * (1 + 1/1000000) is 434000434
exactly. -/
theorem set_params_frequency_correction_counterexample :
    (set_freq_corr (new []) (Double.ofNat 1)).map (fun r => (r.1.frequency, r.1._src.frequency))
        = some (434000000, 434000433) ∧
      (434000000 : ℚ) * (1 + 1 / 1000000) = 434000434 := by
  refine ⟨by decide, by norm_num⟩

/-! ### Automatic bandwidth -/

theorem lit_0_8_toRat : Double.lit_0_8.toRat = 7205759403792794 / 2 ^ 53 := by
  simp only [Double.toRat, Double.lit_0_8]
  norm_num

theorem auto_bandwidth_trunc (n : Nat) (hn : n < 2 ^ 50) :
    (Double.mul Double.lit_0_8 (Double.ofNat n)).trunc = ((4 * n / 5 : Nat) : Int) := by
  have hrn : Double.Repr53 (n : ℚ) := Double.Repr53_natCast n (by omega)
  have hX : Double.lit_0_8.toRat * (Double.ofNat n).toRat
      = 7205759403792794 / 2 ^ 53 * (n : ℚ) := by
    rw [lit_0_8_toRat, Double.toRat_ofNat n hrn]
  have hnear : ∀ y : ℚ, Double.Repr53 y →
      |(Double.mul Double.lit_0_8 (Double.ofNat n)).toRat - 7205759403792794 / 2 ^ 53 * (n : ℚ)|
        ≤ |y - 7205759403792794 / 2 ^ 53 * (n : ℚ)| := by
    intro y hy
    have := Double.toRat_round_nearest (Double.lit_0_8.m * (Double.ofNat n).m)
      (Double.lit_0_8.e + (Double.ofNat n).e) y hy
    rw [Double.mul_exact, hX] at this
    exact this
  set V := (Double.mul Double.lit_0_8 (Double.ofNat n)).toRat with hV
  set X : ℚ := 7205759403792794 / 2 ^ 53 * (n : ℚ) with hXdef
  have hn' : (n : ℚ) < 2 ^ 50 := by exact_mod_cast hn
  have hn0 : (0 : ℚ) ≤ (n : ℚ) := Nat.cast_nonneg n
  have hT1 : 5 * (4 * n / 5) ≤ 4 * n := Nat.mul_div_le _ _
  have hT2 : 4 * n < 5 * (4 * n / 5) + 5 := by omega
  have hT1' : 5 * ((4 * n / 5 : Nat) : ℚ) ≤ 4 * (n : ℚ) := by exact_mod_cast hT1
  have hT2' : 4 * (n : ℚ) + 1 ≤ 5 * ((4 * n / 5 : Nat) : ℚ) + 5 := by exact_mod_cast hT2
  have hXn : X = 4 / 5 * (n : ℚ) + 2 / (5 * 2 ^ 53) * (n : ℚ) := by
    rw [hXdef]; ring
  -- lower bound
  have hlow : ((4 * n / 5 : Nat) : ℚ) ≤ V := by
    have h1 := hnear ((4 * n / 5 : Nat) : ℚ) (Double.Repr53_natCast _ (by omega))
    have hTX : ((4 * n / 5 : Nat) : ℚ) ≤ X := by rw [hXn]; nlinarith
    rw [abs_of_nonpos (by linarith : ((4 * n / 5 : Nat) : ℚ) - X ≤ 0)] at h1
    have h2 := neg_abs_le (V - X)
    linarith
  -- upper bound
  have hup : V < ((4 * n / 5 : Nat) : ℚ) + 1 := by
    have hX0 : 0 ≤ X := by rw [hXdef]; positivity
    have hXlt : X < 2 ^ 50 := by rw [hXn]; nlinarith
    have ha1 : ((⌊8 * X⌋₊ : Nat) : ℚ) ≤ 8 * X := Nat.floor_le (by linarith)
    have ha2 : 8 * X < ((⌊8 * X⌋₊ : Nat) : ℚ) + 1 := Nat.lt_floor_add_one _
    have ha3 : ⌊8 * X⌋₊ < 2 ^ 53 := by
      have : ((⌊8 * X⌋₊ : Nat) : ℚ) < ((2 ^ 53 : Nat) : ℚ) := by
        push_cast; linarith
      exact_mod_cast this
    have hy : Double.Repr53 (((⌊8 * X⌋₊ : Nat) : ℚ) / 8) := by
      refine ⟨(⌊8 * X⌋₊ : Int), -3, by rw [Int.natAbs_ofNat]; exact ha3, ?_⟩
      rw [zpow_neg]; norm_num; ring
    have h1 := hnear _ hy
    rw [abs_of_nonpos (by linarith : ((⌊8 * X⌋₊ : Nat) : ℚ) / 8 - X ≤ 0)] at h1
    have h2 := le_abs_self (V - X)
    have h3 : 2 / (5 * 2 ^ 53) * (n : ℚ) < 1 / 20 := by nlinarith
    linarith
  have hV0 : 0 ≤ V := le_trans (Nat.cast_nonneg _) hlow
  rw [Double.trunc_of_nonneg _ hV0]
  rw [Int.floor_eq_iff]
  constructor
  · exact_mod_cast hlow
  · exact_mod_cast hup

/-- C7, as amended: `set_bandwidth(0)` stores and returns the integer part of the `double`
product `0.8 * samplerate`, which is the integer part of 0.8 x samplerate for every samplerate
below `2^50`; for every `bw` other than 0 whose integer part fits the unsigned type it stores
and returns the integer part of `bw`; `get_bandwidth` then returns the stored value. The
calls are defined when `set_params` is: `f` is the corrected frequency it forwards. -/
theorem set_bandwidth_auto (s : plutosdr_source_c) (f : Nat)
    (hf : corrected_freq s.frequency s._freq_corr = some f) :
    (s.samplerate < 2 ^ 50 → ∃ s' r, set_bandwidth s Double.zero = some (s', r) ∧
        s'.bandwidth = ⌊(0.8 : ℚ) * (s.samplerate : ℚ)⌋₊ ∧ r.toRat = (s'.bandwidth : ℚ) ∧
        get_bandwidth s' = r) ∧
      (∀ (bw : Double) (n : Nat), bw.wf = true → bw.m ≠ 0 → bw.toUInt64 = some n →
        ∃ s' r, set_bandwidth s bw = some (s', r) ∧ (s'.bandwidth : Int) = bw.trunc ∧
          r.toRat = (bw.trunc : ℚ) ∧ get_bandwidth s' = r) := by
  refine ⟨?_, ?_⟩
  · intro hs
    have ht := auto_bandwidth_trunc s.samplerate hs
    have hfl : ⌊(0.8 : ℚ) * (s.samplerate : ℚ)⌋₊ = 4 * s.samplerate / 5 := by
      have e : (0.8 : ℚ) * (s.samplerate : ℚ)
          = ((4 * s.samplerate : Nat) : ℚ) / ((5 : Nat) : ℚ) := by
        push_cast; norm_num; ring
      rw [e, Nat.floor_div_eq_div]
    have hlt : 4 * s.samplerate / 5 < 2 ^ 53 := by omega
    have hu : (Double.mul Double.lit_0_8 (Double.ofNat s.samplerate)).toUInt64
        = some (4 * s.samplerate / 5) := by
      unfold Double.toUInt64
      rw [ht]
      have h1 : (0 : Int) ≤ ((4 * s.samplerate / 5 : Nat) : Int) ∧
          ((4 * s.samplerate / 5 : Nat) : Int) < 2 ^ 64 :=
        ⟨Int.natCast_nonneg _, by exact_mod_cast (by omega : 4 * s.samplerate / 5 < 2 ^ 64)⟩
      simp only [h1, and_self, if_true, Int.toNat_ofNat]
    obtain ⟨s', hs'⟩ := set_params_defined { s with bandwidth := 4 * s.samplerate / 5 } f hf
    have hfld := (set_params_fields _ s' hs').2.2.1
    refine ⟨s', Double.ofNat s'.bandwidth, ?_, ?_, ?_, rfl⟩
    · simp only [set_bandwidth, Double.zero, if_true, hu, hs']
    · rw [hfld, hfl]
    · rw [hfld]
      exact Double.toRat_ofNat _ (Double.Repr53_natCast _ hlt)
  · intro bw n hw hm hn
    obtain ⟨_, _, hnt⟩ := Double.toUInt64_eq_some bw n hn
    obtain ⟨s', hs'⟩ := set_params_defined { s with bandwidth := n } f hf
    have hfld := (set_params_fields _ s' hs').2.2.1
    refine ⟨s', Double.ofNat s'.bandwidth, ?_, ?_, ?_, rfl⟩
    · simp only [set_bandwidth, hm, if_false, hn, hs']
    · rw [hfld]; exact hnt
    · rw [hfld]; exact Double.toRat_ofNat_toUInt64 bw hw n hn

/-- C7, as amended, at a concrete input: the freshly constructed source, samplerate 2500000:
`set_bandwidth(0)` stores 2000000. -/
theorem set_bandwidth_auto_witness :
    (new []).samplerate = 2500000 ∧
      (set_bandwidth (new []) Double.zero).map (fun r => r.1.bandwidth) = some 2000000 ∧
      ∃ s' r, set_bandwidth (new []) Double.zero = some (s', r) ∧
        s'.bandwidth = ⌊(0.8 : ℚ) * ((new []).samplerate : ℚ)⌋₊ ∧
        r.toRat = (s'.bandwidth : ℚ) ∧ get_bandwidth s' = r :=
  ⟨by decide, by decide, (set_bandwidth_auto (new []) 434000000 (by decide)).1 (by decide)⟩

/-- C7 as stated fails for a large samplerate: after `set_sample_rate(2251799813685251)`,
`set_bandwidth(0)` stores 1801439850948201, while 0.8 x 2251799813685251 is
1801439850948200.8, of integer part 1801439850948200. -/
theorem set_bandwidth_auto_counterexample :
    (set_sample_rate (new []) (Double.ofNat 2251799813685251)).map (fun r => r.1.samplerate)
        = some 2251799813685251 ∧
      ((set_sample_rate (new []) (Double.ofNat 2251799813685251)).bind
          (fun r => set_bandwidth r.1 Double.zero)).map (fun r => r.1.bandwidth)
        = some 1801439850948201 ∧
      ⌊(0.8 : ℚ) * 2251799813685251⌋₊ = 1801439850948200 := by
  refine ⟨by decide, by decide, ?_⟩
  rw [Nat.floor_eq_iff (by norm_num)]
  constructor <;> norm_num

end plutosdr_source_c

end PlutoSDR

